import Mathlib

/-!
# Metadata generator (`action/action.go`)

A shallow embedding of the GitHub action that writes `metadata.json`, and the
properties of its specification checked against it.

Modelling conventions.

* A Go `string` is a list of bytes (`GoString`); text written between quotes
  below stands for its UTF-8 encoding (`str`).  Nothing requires a string to be
  valid UTF-8: the values of environment variables and the output of a command
  are arbitrary bytes.
* The process environment, the child process, and the file system are the
  fields of a `World`; every call the program makes that changes something
  outside the process is recorded in a list of `Effect`s.
* A Go function that returns `(T, error)` returns an `Outcome T`, which also has a
  case for a run-time panic (index out of range).
* `actions.Infof` only prints a diagnostic line and is left out.
-/

namespace GenerateMetadata

set_option maxRecDepth 100000

/-! ## Strings and UTF-8 -/

/-- A byte. -/
abbrev Byte := Fin 256

/-- A Go `string`: a sequence of bytes. -/
abbrev GoString := List Byte

/-- The byte with the given value (reduced modulo 256, as Go's `byte(x)`). -/
def byte (n : Nat) : Byte := Fin.ofNat n

/-- Constant `utf8.RuneError`. -/
def RuneError : Nat := 0xFFFD

/-- Go `utf8.AppendRune`: the UTF-8 encoding of a rune; a surrogate or a value
above `utf8.MaxRune` is encoded as `RuneError`. -/
def EncodeRune (r : Nat) : GoString :=
  if r ≤ 0x7F then [byte r]
  else if r ≤ 0x7FF then [byte (0xC0 + r / 64), byte (0x80 + r % 64)]
  else if r > 0x10FFFF ∨ (0xD800 ≤ r ∧ r ≤ 0xDFFF) then [0xEF, 0xBF, 0xBD]
  else if r ≤ 0xFFFF then
    [byte (0xE0 + r / 4096), byte (0x80 + r / 64 % 64), byte (0x80 + r % 64)]
  else
    [byte (0xF0 + r / 262144), byte (0x80 + r / 4096 % 64), byte (0x80 + r / 64 % 64),
      byte (0x80 + r % 64)]

/-- The Go string with the given text: its UTF-8 encoding. -/
def str (s : String) : GoString := s.data.flatMap fun c => EncodeRune c.toNat

instance : Coe String GoString := ⟨str⟩

/-- Table `first` of package `utf8`: information about the first byte of an
encoding (`as` is 0xF0, `xx` is 0xF1, `s1` to `s7` give the size in the low bits
and the index of the accept range in the high bits). -/
def first (b : Nat) : Nat :=
  if b < 0x80 then 0xF0
  else if b < 0xC2 then 0xF1
  else if b < 0xE0 then 0x02
  else if b = 0xE0 then 0x13
  else if b < 0xED then 0x03
  else if b = 0xED then 0x23
  else if b < 0xF0 then 0x03
  else if b = 0xF0 then 0x34
  else if b < 0xF4 then 0x04
  else if b = 0xF4 then 0x44
  else 0xF1

/-- Lower bounds of table `acceptRanges` of package `utf8`. -/
def acceptLo (i : Nat) : Nat :=
  if i = 1 then 0xA0 else if i = 3 then 0x90 else 0x80

/-- Upper bounds of table `acceptRanges` of package `utf8`. -/
def acceptHi (i : Nat) : Nat :=
  if i = 2 then 0x9F else if i = 4 then 0x8F else 0xBF

/-- Go `utf8.DecodeRuneInString`: the first rune of `s` and its width in bytes;
`(RuneError, 1)` when `s` does not start with a valid encoding, and
`(RuneError, 0)` when `s` is empty. -/
def DecodeRuneInString (s : GoString) : Nat × Nat :=
  match s with
  | [] => (RuneError, 0)
  | s0 :: t =>
    let x := first s0.val
    if x ≥ 0xF0 then (if x = 0xF0 then s0.val else RuneError, 1)
    else
      let sz := x % 8
      if t.length + 1 < sz then (RuneError, 1)
      else
        match t with
        | [] => (RuneError, 1)
        | s1 :: t1 =>
          if s1.val < acceptLo (x / 16) ∨ acceptHi (x / 16) < s1.val then (RuneError, 1)
          else if sz ≤ 2 then (s0.val % 32 * 64 + s1.val % 64, 2)
          else
            match t1 with
            | [] => (RuneError, 1)
            | s2 :: t2 =>
              if s2.val < 0x80 ∨ 0xBF < s2.val then (RuneError, 1)
              else if sz ≤ 3 then
                (s0.val % 16 * 4096 + s1.val % 64 * 64 + s2.val % 64, 3)
              else
                match t2 with
                | [] => (RuneError, 1)
                | s3 :: _ =>
                  if s3.val < 0x80 ∨ 0xBF < s3.val then (RuneError, 1)
                  else
                    (s0.val % 8 * 262144 + s1.val % 64 * 4096 + s2.val % 64 * 64
                      + s3.val % 64, 4)

/-- Go `utf8.RuneStart`: the byte is not a continuation byte. -/
def RuneStart (b : Byte) : Bool := b.val / 64 ≠ 2

/-- Backward scan of `utf8.DecodeLastRuneInString`: the index, among the `k`
indices from `start` downwards, of the first byte that can start a rune, and
`lim - 1` (0 when `lim` is 0) when there is none. -/
def scanBack (s : GoString) (lim : Nat) : Nat → Nat → Nat
  | _, 0 => lim - 1
  | start, k + 1 =>
    if RuneStart (s.getD start 0) then start else scanBack s lim (start - 1) k

/-- Go `utf8.DecodeLastRuneInString`: the last rune of `s` and its width. -/
def DecodeLastRuneInString (s : GoString) : Nat × Nat :=
  if s.length = 0 then (RuneError, 0)
  else
    let r := (s.getD (s.length - 1) 0).val
    if r < 0x80 then (r, 1)
    else
      let lim := s.length - 4
      let start := scanBack s lim (s.length - 2) (s.length - 1 - lim)
      let d := DecodeRuneInString (s.drop start)
      if start + d.2 ≠ s.length then (RuneError, 1) else d

/-- Go `unicode.IsSpace`: the Latin-1 spaces and the code points with the
White_Space property. -/
def IsSpace (r : Nat) : Bool :=
  r = 0x09 || r = 0x0A || r = 0x0B || r = 0x0C || r = 0x0D || r = 0x20 ||
  r = 0x85 || r = 0xA0 || r = 0x1680 ||
  (decide (0x2000 ≤ r) && decide (r ≤ 0x200a)) ||
  r = 0x2028 || r = 0x2029 || r = 0x202f || r = 0x205f || r = 0x3000

/-- Table `asciiSpace` of package `strings`. -/
def asciiSpace (b : Byte) : Bool :=
  b = 0x09 || b = 0x0A || b = 0x0B || b = 0x0C || b = 0x0D || b = 0x20

/-! ## Library functions -/

/-- Go `strings.Contains(s, substr)`: `substr` occurs in `s` as a contiguous block. -/
def Contains (s substr : GoString) : Prop := substr <:+: s

instance (s substr : GoString) : Decidable (Contains s substr) := by
  unfold Contains; infer_instance

/-- Go `strings.TrimPrefix(s, p)`: `s` without the leading `p` when `s` starts with
`p`, and `s` itself otherwise. -/
def TrimPrefix (s p : GoString) : GoString :=
  if p <+: s then s.drop p.length else s

/-- Go `strings.TrimSuffix(s, x)`: `s` without the trailing `x` when `s` ends with
`x`, and `s` itself otherwise. -/
def TrimSuffix (s x : GoString) : GoString :=
  if x <:+ s then s.take (s.length - x.length) else s

/-- Pieces of a list cut at every occurrence of `sep`. -/
def splitList {α : Type} [DecidableEq α] (sep : α) : List α → List (List α)
  | [] => [[]]
  | c :: cs =>
    if c = sep then [] :: splitList sep cs
    else
      match splitList sep cs with
      | [] => [[c]]
      | piece :: pieces => (c :: piece) :: pieces

/-- Go `strings.Split(s, sep)` for a one-byte separator (the program only
splits on `"/"`): all pieces of `s` between occurrences of `sep`; one more piece
than there are separators, so never an empty slice. -/
def Split (s : GoString) (sep : Byte) : List GoString := splitList sep s

/-- Scan of `strings.Fields`, rune by rune as the `range` loop of
`strings.FieldsFunc` reads them: `cur` is the field being read (empty between
fields).  Every round reads at least one byte, so as many rounds as `s` has
bytes are enough. -/
def fieldsFrom : Nat → GoString → GoString → List GoString
  | 0, _, cur => if cur = [] then [] else [cur]
  | _ + 1, [], cur => if cur = [] then [] else [cur]
  | fuel + 1, b :: rest, cur =>
    let d := DecodeRuneInString (b :: rest)
    if IsSpace d.1 then
      if cur = [] then fieldsFrom fuel ((b :: rest).drop d.2) []
      else cur :: fieldsFrom fuel ((b :: rest).drop d.2) []
    else fieldsFrom fuel ((b :: rest).drop d.2) (cur ++ (b :: rest).take d.2)

/-- Go `strings.Fields(s)`: the maximal runs of bytes of `s` between white space
runes (`unicode.IsSpace`; a byte that is not valid UTF-8 reads as `RuneError`,
which is not a space).  The fast path of `strings.Fields` for ASCII strings
gives the same fields. -/
def Fields (s : GoString) : List GoString := fieldsFrom s.length s []

/-- Go `strings.TrimLeftFunc(s, unicode.IsSpace)`: `s` from its first rune that
is not a space. -/
def trimLeftSpace : Nat → GoString → GoString
  | 0, s => s
  | _ + 1, [] => []
  | fuel + 1, b :: rest =>
    let d := DecodeRuneInString (b :: rest)
    if IsSpace d.1 then trimLeftSpace fuel ((b :: rest).drop d.2) else b :: rest

/-- Function `lastIndexFunc(s, unicode.IsSpace, false)` of package `strings`:
the index of the last rune of `s[0:i]` that is not a space, read backwards with
`utf8.DecodeLastRuneInString`; `none` stands for -1. -/
def lastIndexNotSpace (s : GoString) : Nat → Nat → Option Nat
  | 0, _ => none
  | fuel + 1, i =>
    if i = 0 then none
    else
      let d := DecodeLastRuneInString (s.take i)
      if IsSpace d.1 then lastIndexNotSpace s fuel (i - d.2) else some (i - d.2)

/-- Go `strings.TrimRightFunc(s, unicode.IsSpace)`. -/
def trimRightSpace (s : GoString) : GoString :=
  match lastIndexNotSpace s s.length s.length with
  | none => s.take 0
  | some i =>
    if (s.getD i 0).val ≥ 0x80 then s.take (i + (DecodeRuneInString (s.drop i)).2)
    else s.take (i + 1)

/-- Second loop of `strings.TrimSpace`, on the reversed string `s[start:stop]`:
trailing ASCII spaces are dropped; a byte that is not ASCII hands over to
`strings.TrimRightFunc`. -/
def trimSpaceEnd : GoString → GoString
  | [] => []
  | c :: r =>
    if c.val ≥ 0x80 then trimRightSpace (c :: r).reverse
    else if asciiSpace c then trimSpaceEnd r
    else (c :: r).reverse

/-- Go `strings.TrimSpace(s)`: `s` without leading and trailing white space.
Leading ASCII spaces are dropped first; a byte that is not ASCII hands over to
`strings.TrimFunc(s[start:], unicode.IsSpace)`. -/
def TrimSpace : GoString → GoString
  | [] => []
  | c :: rest =>
    if c.val ≥ 0x80 then
      trimRightSpace (trimLeftSpace (c :: rest).length (c :: rest))
    else if asciiSpace c then TrimSpace rest
    else trimSpaceEnd (c :: rest).reverse

/-- Go `strings.ToUpper` on an ASCII string: the lower-case letters are
replaced by the upper-case ones. -/
def ToUpperASCII (s : GoString) : GoString :=
  s.map fun b => if 0x61 ≤ b.val ∧ b.val ≤ 0x7A then byte (b.val - 0x20) else b

/-- Go `strings.ReplaceAll(s, " ", "_")`. -/
def spacesToUnderscores (s : GoString) : GoString :=
  s.map fun b => if b = 0x20 then 0x5F else b

/-! ### `path.Clean` and `path.Join` -/

/-- Backtracking step of `path.Clean` on a `..` element, on the reversed output
buffer: `out.w--`, then `out.w--` again as long as `out.w > dotdot` and the
byte just dropped is not a slash. -/
def backtrackRev (dotdot : Nat) : GoString → GoString
  | [] => []
  | c :: rest =>
    if rest.length > dotdot ∧ c ≠ 0x2f then backtrackRev dotdot rest else rest

/-- Output buffer after backtracking over the last path element. -/
def backtrack (dotdot : Nat) (out : GoString) : GoString :=
  (backtrackRev dotdot out.reverse).reverse

/-- Main loop of `path.Clean`.  `rest` is the unread input `path[r:]`, `out` the
output buffer (so `out.w` is `out.length`), `dotdot` the index where `..` must
stop; 0x2f is the slash and 0x2e the dot.  Every round reads at least one byte,
so `rest.length` rounds are enough. -/
def cleanLoop (rooted : Bool) : Nat → GoString → GoString → Nat → GoString
  | 0, _, out, _ => out
  | fuel + 1, rest, out, dotdot =>
    match rest with
    | [] => out
    | c :: t =>
      if c = 0x2f then
        -- empty path element
        cleanLoop rooted fuel t out dotdot
      else if c = 0x2e ∧ (t = [] ∨ t.head? = some 0x2f) then
        -- . element
        cleanLoop rooted fuel t out dotdot
      else if c = 0x2e ∧ t.head? = some 0x2e ∧ (t.tail = [] ∨ t.tail.head? = some 0x2f) then
        -- .. element: remove to last /
        if out.length > dotdot then
          cleanLoop rooted fuel t.tail (backtrack dotdot out) dotdot
        else if rooted = false then
          let out1 := (if out.length > 0 then out ++ [0x2f] else out) ++ [0x2e, 0x2e]
          cleanLoop rooted fuel t.tail out1 out1.length
        else
          cleanLoop rooted fuel t.tail out dotdot
      else
        -- real path element: add slash if needed, then copy element
        let out1 :=
          if (rooted = true ∧ out.length ≠ 1) ∨ (rooted = false ∧ out.length ≠ 0)
          then out ++ [0x2f] else out
        cleanLoop rooted fuel (rest.dropWhile (· ≠ 0x2f))
          (out1 ++ rest.takeWhile (· ≠ 0x2f)) dotdot

/-- Go `path.Clean(path)`: the shortest path name equivalent to `path` by purely
lexical processing. -/
def Clean (p : GoString) : GoString :=
  match p with
  | [] => [0x2e]
  | c :: t =>
    let rooted : Bool := c = 0x2f
    let out :=
      if rooted then cleanLoop true (p.length + 1) t [0x2f] 1
      else cleanLoop false (p.length + 1) p [] 0
    if out = [] then [0x2e] else out

/-- Go `path.Join(elem...)`: the elements joined with slashes, leading empty
elements ignored, the result cleaned; the empty string when every element is
empty. -/
def Join (elem : List GoString) : GoString :=
  match elem.dropWhile (· = []) with
  | [] => []
  | e :: es => Clean (List.intercalate [0x2f] (e :: es))

/-- A path element that `path.Clean` copies: not empty, without a slash, and
neither `.` nor `..`. -/
def PlainElement (s : GoString) : Prop :=
  s ≠ [] ∧ (0x2f : Byte) ∉ s ∧ s ≠ [0x2e] ∧ s ≠ [0x2e, 0x2e]

instance (s : GoString) : Decidable (PlainElement s) := by
  unfold PlainElement; infer_instance

/-- A path in the form `path.Clean` produces from plain elements: they are
joined by single slashes, after a leading slash when `rooted`. -/
def plainPath (rooted : Bool) (elems : List GoString) : GoString :=
  (if rooted then [0x2f] else []) ++ List.intercalate [0x2f] elems

/-! ### `encoding/json` -/

/-- One `key:"value"` pair at the head of a struct tag, as the loop body of
`reflect.StructTag.Lookup` reads it: the text of the quoted value up to the next
unescaped quote, and what follows that quote; `none` when no closing quote
comes. -/
def scanQuoted : List Char → Option (List Char × List Char)
  | [] => none
  | c :: cs =>
    if c = '"' then some ([], cs)
    else if c = '\\' then
      match cs with
      | [] => none
      | d :: ds => (scanQuoted ds).map (fun qr => (c :: d :: qr.1, qr.2))
    else (scanQuoted cs).map (fun qr => (c :: qr.1, qr.2))

/-- Go `strconv.Unquote` on a double-quoted literal whose text has no escape
sequence (the case of every tag of the program); `none` stands for the other
literals. -/
def unquotePlain (q : List Char) : Option (List Char) :=
  if '\\' ∈ q ∨ '\n' ∈ q then none else some q

/-- Go `reflect.StructTag.Lookup(key)`: the pairs of the tag are read from the
left, and the value of the first pair named `key` is returned; the scan stops at
the first malformed pair. -/
def lookupTag (key : List Char) : Nat → List Char → Option (List Char)
  | 0, _ => none
  | fuel + 1, tag =>
    let tag := tag.dropWhile (· = ' ')
    let name := tag.takeWhile
      (fun c => decide (c.toNat > 0x20) && c != ':' && c != '"' && c.toNat != 0x7f)
    match tag.drop name.length with
    | c :: d :: rest =>
      if name ≠ [] ∧ c = ':' ∧ d = '"' then
        match scanQuoted rest with
        | none => none
        | some (q, after) =>
          if key = name then unquotePlain q else lookupTag key fuel after
      else none
    | _ => none

/-- Characters `encoding/json` accepts in a key taken from a tag (ASCII part of
`isValidTag`). -/
def validTagChar (c : Char) : Bool :=
  c.isAlphanum || c ∈ "!#$%&()*+-./:;<=>?@[]^_\x7b|\x7d~ ".data

/-- Key under which `encoding/json` writes a struct field: the text of the
`json` tag before the first comma when that is a valid name, and the Go field
name otherwise.  (The tag `-`, which leaves a field out, does not occur in the
program.) -/
def jsonKey (goName tag : String) : String :=
  match lookupTag "json".data (tag.data.length + 1) tag.data with
  | none => goName
  | some v =>
    let name := v.takeWhile (· ≠ ',')
    if name ≠ [] ∧ name.all validTagChar then String.mk name else goName

/-- Table `hex` of `encoding/json`. -/
def hex (n : Nat) : Byte := (str "0123456789abcdef").getD n 0x30

/-- Table `htmlSafeSet` of `encoding/json`: the ASCII bytes written as they
are when HTML escaping is on (as it is in `json.Marshal`): all from the space
on, except the quote, `&`, `<`, `>` and the backslash. -/
def htmlSafe (b : Byte) : Bool :=
  decide (0x20 ≤ b.val) && decide (b.val < 0x80) &&
    b != 0x22 && b != 0x26 && b != 0x3C && b != 0x3E && b != 0x5C

/-- What the string encoder of `encoding/json` writes for an ASCII byte.
`short` says whether backspace and form feed are written `\b` and `\f` (Go 1.22
and later) or `\u0008` and `\u000c` (earlier releases). -/
def escapeByte (short : Bool) (b : Byte) : GoString :=
  if htmlSafe b then [b]
  else if b = 0x5C ∨ b = 0x22 then [0x5C, b]
  else if b = 0x08 ∧ short = true then str "\\b"
  else if b = 0x0C ∧ short = true then str "\\f"
  else if b = 0x0A then str "\\n"
  else if b = 0x0D then str "\\r"
  else if b = 0x09 then str "\\t"
  else str "\\u00" ++ [hex (b.val / 16), hex (b.val % 16)]

/-- Loop of the string encoder of `encoding/json` (`appendString` with
`escapeHTML` on) over the bytes not yet read: an ASCII byte is written as
`escapeByte` says; a byte that does not start a valid encoding is written as
the six bytes `\ufffd`; the line and paragraph separators U+2028 and U+2029 are
written `\u2028` and `\u2029`; any other rune is copied.  Every round reads at
least one byte. -/
def encodeLoop (short : Bool) : Nat → GoString → GoString
  | 0, _ => []
  | _ + 1, [] => []
  | fuel + 1, b :: rest =>
    if b.val < 0x80 then escapeByte short b ++ encodeLoop short fuel rest
    else
      let d := DecodeRuneInString ((b :: rest).take 4)
      if d.1 = RuneError ∧ d.2 = 1 then
        str "\\ufffd" ++ encodeLoop short fuel rest
      else if d.1 = 0x2028 ∨ d.1 = 0x2029 then
        str "\\u202" ++ [hex (d.1 % 16)] ++ encodeLoop short fuel ((b :: rest).drop d.2)
      else (b :: rest).take d.2 ++ encodeLoop short fuel ((b :: rest).drop d.2)

/-- JSON string literal `encoding/json` writes for `s`. -/
def encodeString (short : Bool) (s : GoString) : GoString :=
  [0x22] ++ encodeLoop short s.length s ++ [0x22]

/-- What is left of a string once `encoding/json` has written it: every byte
that is not part of a valid UTF-8 encoding is replaced by the encoding of
U+FFFD, the rest is kept. -/
def replaceInvalid : Nat → GoString → GoString
  | 0, _ => []
  | _ + 1, [] => []
  | fuel + 1, b :: rest =>
    let d := DecodeRuneInString ((b :: rest).take 4)
    if d.1 = RuneError ∧ d.2 = 1 then [0xEF, 0xBF, 0xBD] ++ replaceInvalid fuel rest
    else (b :: rest).take d.2 ++ replaceInvalid fuel ((b :: rest).drop d.2)

/-- Go `strings.ToValidUTF8` with one U+FFFD for each invalid byte. -/
def toValid (s : GoString) : GoString := replaceInvalid s.length s

/-- Walk of `utf8.ValidString`: no round meets a byte that does not start a
valid encoding. -/
def validFrom : Nat → GoString → Bool
  | 0, _ => true
  | _ + 1, [] => true
  | fuel + 1, b :: rest =>
    let d := DecodeRuneInString ((b :: rest).take 4)
    if d.1 = RuneError ∧ d.2 = 1 then false else validFrom fuel ((b :: rest).drop d.2)

/-- Go `utf8.ValidString(s)`: `s` is made of valid UTF-8 encodings only. -/
def ValidString (s : GoString) : Bool := validFrom s.length s

/-! ### Reading a JSON string literal (RFC 8259, section 7)

The reader below is the yardstick for "the value of a key": a value written by
the program is the string this reader gets back from the literal. -/

/-- Value of a hexadecimal digit. -/
def hexVal (b : Byte) : Option Nat :=
  if 0x30 ≤ b.val ∧ b.val ≤ 0x39 then some (b.val - 0x30)
  else if 0x61 ≤ b.val ∧ b.val ≤ 0x66 then some (b.val - 0x61 + 10)
  else if 0x41 ≤ b.val ∧ b.val ≤ 0x46 then some (b.val - 0x41 + 10)
  else none

/-- Value of four hexadecimal digits. -/
def hex4 (a b c d : Byte) : Option Nat :=
  match hexVal a, hexVal b, hexVal c, hexVal d with
  | some x, some y, some z, some t => some (((x * 16 + y) * 16 + z) * 16 + t)
  | _, _, _, _ => none

/-- Byte named by a two-character escape: quote, backslash, slash, `b`, `f`,
`n`, `r`, `t`. -/
def simpleEscape (e : Byte) : Option Byte :=
  if e = 0x22 then some 0x22
  else if e = 0x5C then some 0x5C
  else if e = 0x2F then some 0x2F
  else if e = 0x62 then some 0x08
  else if e = 0x66 then some 0x0C
  else if e = 0x6E then some 0x0A
  else if e = 0x72 then some 0x0D
  else if e = 0x74 then some 0x09
  else none

/-- Low surrogate named by the escape `\uXXXX` with the given six bytes, if it
is one. -/
def lowSurrogate (b u h1 h2 h3 h4 : Byte) : Option Nat :=
  if b = 0x5C ∧ u = 0x75 then
    match hex4 h1 h2 h3 h4 with
    | some n => if 0xDC00 ≤ n ∧ n ≤ 0xDFFF then some n else none
    | none => none
  else none

/-- Encoding of the rune named by `\u` and the text after it, and the text
left: four hexadecimal digits, a surrogate pair standing for its code point and
a lone surrogate for U+FFFD. -/
def decodeUnicode (l : GoString) : Option (GoString × GoString) :=
  match l with
  | h1 :: h2 :: h3 :: h4 :: rest4 =>
    match hex4 h1 h2 h3 h4 with
    | none => none
    | some n =>
      if 0xD800 ≤ n ∧ n ≤ 0xDBFF then
        match rest4 with
        | b :: u :: l1 :: l2 :: l3 :: l4 :: rest10 =>
          match lowSurrogate b u l1 l2 l3 l4 with
          | some low =>
            some (EncodeRune (0x10000 + (n - 0xD800) * 0x400 + (low - 0xDC00)), rest10)
          | none => some (EncodeRune RuneError, rest4)
        | _ => some (EncodeRune RuneError, rest4)
      else some (EncodeRune n, rest4)
  | _ => none

/-- First item of the text of a string literal, and the text left: an escape
stands for the bytes it names, a control character is not allowed, any other
byte stands for itself. -/
def decodeStep (c : Byte) (cs : GoString) : Option (GoString × GoString) :=
  if c = 0x5C then
    match cs with
    | [] => none
    | e :: rest =>
      if e = 0x75 then decodeUnicode rest
      else
        match simpleEscape e with
        | some d => some ([d], rest)
        | none => none
  else if c.val < 0x20 then none
  else some ([c], cs)

/-- Text of a JSON string literal after its opening quote: the bytes up to
the closing quote, which must end the input; `none` when the text is not a
well-formed literal.  Every step reads at least one byte, so as many
steps as the text is long are enough. -/
def decodeBody : Nat → GoString → Option GoString
  | 0, _ => none
  | _ + 1, [] => none
  | fuel + 1, c :: cs =>
    if c = 0x22 then (if cs = [] then some [] else none)
    else
      match decodeStep c cs with
      | none => none
      | some (d, rest) => (decodeBody fuel rest).map (d ++ ·)

/-- The string a JSON string literal stands for. -/
def decodeString (s : GoString) : Option GoString :=
  match s with
  | [] => none
  | c :: cs => if c = 0x22 then decodeBody cs.length cs else none

/-- A string that is empty or whose first rune is not a space. -/
def NotSpaceFirst (s : GoString) : Prop :=
  s = [] ∨ IsSpace (DecodeRuneInString s).1 = false

/-! ## The program -/

/-- Constant `defaultRepositoryOwner`. -/
def defaultRepositoryOwner : GoString := "hashicorp"

/-- Constant `defaultMetadataFileName`. -/
def defaultMetadataFileName : GoString := "metadata.json"

/-- Struct `input`. -/
structure input where
  branch : GoString
  filePath : GoString
  metadataFileName : GoString
  product : GoString
  repo : GoString
  org : GoString
  sha : GoString
  version : GoString
  deriving DecidableEq, Repr

/-- Struct `Metadata`. -/
structure Metadata where
  Branch : GoString
  BuildWorkflowId : GoString
  Product : GoString
  Repo : GoString
  Org : GoString
  Revision : GoString
  Version : GoString
  deriving DecidableEq, Repr

/-- Fields of `Metadata` in declaration order, each with its struct tag as
written in the source (the tag of `Repo` ends in two quotes) and its value. -/
def Metadata.fields (m : Metadata) : List (String × String × GoString) :=
  [ ("Branch", "json:\"branch\"", m.Branch),
    ("BuildWorkflowId", "json:\"buildworkflowid\"", m.BuildWorkflowId),
    ("Product", "json:\"product\"", m.Product),
    ("Repo", "json:\"repo\"\"", m.Repo),
    ("Org", "json:\"org\"", m.Org),
    ("Revision", "json:\"sha\"", m.Revision),
    ("Version", "json:\"version\"", m.Version) ]

/-- Go `json.MarshalIndent(m, pre, indent)` for a `Metadata`: an opening brace,
one line per field (prefix, one indent, the quoted key, a colon and a space, the
encoded value), the lines separated by a comma and a newline, and the closing
brace on a line of its own after the prefix.  A struct of strings always
marshals, so there is no error case. -/
def MarshalIndent (short : Bool) (m : Metadata) (pre indent : GoString) : GoString :=
  str "\x7b\n" ++
  List.intercalate (str ",\n")
    (m.fields.map fun f =>
      pre ++ indent ++ encodeString short (str (jsonKey f.1 f.2.1)) ++ str ": " ++
        encodeString short f.2.2) ++
  str "\n" ++ pre ++ str "\x7d"

/-- Result of the child process started by `exec.Command(name, args...).Run()`. -/
structure CmdResult where
  /-- Bytes the command wrote to standard output. -/
  stdout : GoString
  /-- Bytes the command wrote to standard error. -/
  stderr : GoString
  /-- Rendering of the `*exec.Cmd` by the verb `%v`. -/
  cmdString : GoString
  /-- Error of `cmd.Run()`: the command could not be started or exited
  non-zero; `none` for exit status zero. -/
  err : Option GoString
  deriving DecidableEq, Repr

/-- Result of `os.Stat`. -/
inductive StatResult where
  /-- An error for which `os.IsNotExist` holds. -/
  | notExist (err : GoString)
  /-- Any other error. -/
  | failed (err : GoString)
  /-- File information; `isDir` is `fileInfo.IsDir()`. -/
  | info (isDir : Bool)
  deriving DecidableEq, Repr

/-- Everything outside the process that the program reads or calls. -/
structure World where
  /-- Go `os.Getenv`. -/
  Getenv : GoString → GoString
  /-- Running a command: program name and arguments. -/
  Run : GoString → List GoString → CmdResult
  /-- Go `ioutil.WriteFile(path, data, perm)`: `none` when the write succeeds,
  the error text otherwise. -/
  WriteFile : GoString → GoString → Nat → Option GoString
  /-- Go `os.Stat`, at the time `run` checks the generated file. -/
  Stat : GoString → StatResult
  /-- Whether `encoding/json` writes `\b` and `\f` for backspace and form
  feed. -/
  jsonShortEscapes : Bool

/-- Call `actions.GetInput(i)` of the library `go-githubactions`: the value of
the environment variable `INPUT_` followed by the name in upper case, spaces
replaced by underscores, with the white space around it trimmed.  (The names
the program asks for are ASCII.) -/
def GetInput (w : World) (i : GoString) : GoString :=
  TrimSpace (w.Getenv (str "INPUT_" ++ ToUpperASCII (spacesToUnderscores i)))

/-- Calls of the program that act on the outside. -/
inductive Effect where
  | exec (name : GoString) (args : List GoString)
  | writeFile (path data : GoString) (perm : Nat)
  | setOutput (name value : GoString)
  | setEnv (name value : GoString)
  deriving DecidableEq, Repr

/-- A Go `error` value. -/
inductive GoError where
  /-- An error with the given message. -/
  | msg (text : GoString)
  /-- Result of `fmt.Errorf(err.Error())`: the message of `cause` used as a
  format string without operands. -/
  | reformat (cause : GoError)
  deriving DecidableEq, Repr

/-- How a call ends. -/
inductive Outcome (α : Type) where
  /-- Return of a value and a nil error. -/
  | ok (value : α)
  /-- Return of a non-nil error. -/
  | failed (err : GoError)
  /-- Run-time panic with the given message; the process aborts. -/
  | panicked (reason : String)
  deriving DecidableEq, Repr

/-- A call's outcome together with the effects it had, in order. -/
structure Trace (α : Type) where
  result : Outcome α
  effects : List Effect
  deriving DecidableEq, Repr

/-- Function `execCommand(args ...string)`. -/
def execCommand (w : World) (args : List GoString) : Trace GoString :=
  match args with
  | [] => ⟨.panicked "runtime error: index out of range [0] with length 0", []⟩
  | name :: rest =>
    let r := w.Run name rest
    match r.err with
    | some err =>
      ⟨.failed (.msg (str "Failed to run " ++ name ++ str " command " ++ r.cmdString ++
          str ": " ++ err)),
        [.exec name rest]⟩
    | none => ⟨.ok r.stdout, [.exec name rest]⟩

/-- Function `getVersion(command string)`. -/
def getVersion (w : World) (command : GoString) : Trace GoString :=
  let t := execCommand w (Fields command)
  match t.result with
  | .failed err => ⟨.failed err, t.effects⟩
  | .panicked reason => ⟨.panicked reason, t.effects⟩
  | .ok version =>
    if version = "" then
      ⟨.failed (.msg (str "Failed to setup version using " ++ command ++ str " command")),
        t.effects⟩
    else ⟨.ok (TrimSuffix version "\n"), t.effects⟩

/-- Function `createMetadataJson(in input)`. -/
def createMetadataJson (w : World) (i : input) : Trace GoString :=
  let branch := i.branch
  let branch :=
    if branch = "" ∧ w.Getenv "GITHUB_HEAD_REF" = "" then
      TrimPrefix (w.Getenv "GITHUB_REF") "refs/heads/"
    else w.Getenv "GITHUB_HEAD_REF"
  let file := if i.metadataFileName = "" then defaultMetadataFileName else i.metadataFileName
  let filePath := Join [i.filePath, file]
  let product := i.product
  if product = "" then ⟨.failed (.msg "Missing input 'product' value"), []⟩
  else
  let sha := if i.sha = "" then w.Getenv "GITHUB_SHA" else i.sha
  let org := if i.org = "" then defaultRepositoryOwner else i.org
  let repository? :=
    if i.repo = "" then (Split (w.Getenv "GITHUB_REPOSITORY") 0x2f)[1]? else some i.repo
  match repository? with
  | none => ⟨.panicked "runtime error: index out of range [1] with length 1", []⟩
  | some repository =>
  let runId := w.Getenv "GITHUB_RUN_ID"
  if runId = "" then ⟨.failed (.msg "GITHUB_RUN_ID is empty"), []⟩
  else
  if i.version = "" then
    ⟨.failed (.msg "The version or version command is not provided"), []⟩
  else
  let v : Trace GoString :=
    if Contains i.version " " then getVersion w i.version else ⟨.ok i.version, []⟩
  match v.result with
  | .failed err => ⟨.failed (.reformat err), v.effects⟩
  | .panicked reason => ⟨.panicked reason, v.effects⟩
  | .ok version =>
    let m : Metadata :=
      { Product := product
        Org := org
        Revision := sha
        BuildWorkflowId := runId
        Version := version
        Branch := branch
        Repo := repository }
    let output := MarshalIndent w.jsonShortEscapes m "" "\t\t"
    match w.WriteFile filePath output 0o644 with
    | some err =>
      ⟨.failed (.msg (str "Failed writing data into " ++ i.metadataFileName ++
          str " file. Error: " ++ err ++ str "\n")),
        v.effects ++ [.writeFile filePath output 0o644]⟩
    | none => ⟨.ok filePath, v.effects ++ [.writeFile filePath output 0o644]⟩

/-- The path `createMetadataJson` computes for the file (`filePath` in the
source). -/
def outputPath (i : input) : GoString :=
  Join [i.filePath,
    if i.metadataFileName = "" then defaultMetadataFileName else i.metadataFileName]

/-- The record `createMetadataJson` fills in (the composite literal
`&Metadata{...}` of the source) once the repository name and the version are
resolved. -/
def recordOf (w : World) (i : input) (repository version : GoString) : Metadata :=
  { Branch :=
      if i.branch = "" ∧ w.Getenv "GITHUB_HEAD_REF" = "" then
        TrimPrefix (w.Getenv "GITHUB_REF") "refs/heads/"
      else w.Getenv "GITHUB_HEAD_REF"
    BuildWorkflowId := w.Getenv "GITHUB_RUN_ID"
    Product := i.product
    Repo := repository
    Org := if i.org = "" then defaultRepositoryOwner else i.org
    Revision := if i.sha = "" then w.Getenv "GITHUB_SHA" else i.sha
    Version := version }

/-- The version step of `createMetadataJson`: the command is run when the
version has a space, and the version is taken as it is otherwise. -/
def versionStep (w : World) (i : input) : Trace GoString :=
  if Contains i.version " " then getVersion w i.version else ⟨.ok i.version, []⟩

/-- Function `checkFileIsExist(filepath string)`; `none` is the nil error. -/
def checkFileIsExist (w : World) (filepath : GoString) : Option GoError :=
  match w.Stat filepath with
  | .notExist err => some (.msg err)
  | .failed err => some (.msg (str "failed to read file " ++ filepath ++ str ": " ++ err))
  | .info isDir =>
    if !isDir then some (.msg (str "path is not a directory: " ++ filepath)) else none

/-- Function `run()`. -/
def run (w : World) : Trace Unit :=
  let i : input :=
    { branch := GetInput w "branch"
      filePath := GetInput w "filePath"
      metadataFileName := GetInput w "metadataFileName"
      product := GetInput w "product"
      repo := GetInput w "repo"
      org := GetInput w "org"
      sha := GetInput w "sha"
      version := GetInput w "version" }
  let t := createMetadataJson w i
  match t.result with
  | .failed err => ⟨.failed err, t.effects⟩
  | .panicked reason => ⟨.panicked reason, t.effects⟩
  | .ok generatedFile =>
    match checkFileIsExist w generatedFile with
    | some err => ⟨.failed err, t.effects⟩
    | none =>
      ⟨.ok (), t.effects ++
        [.setOutput "filepath" generatedFile, .setEnv "filepath" generatedFile]⟩

/-- The `input` that `run` reads with `actions.GetInput`. -/
def inputOf (w : World) : input :=
  { branch := GetInput w "branch"
    filePath := GetInput w "filePath"
    metadataFileName := GetInput w "metadataFileName"
    product := GetInput w "product"
    repo := GetInput w "repo"
    org := GetInput w "org"
    sha := GetInput w "sha"
    version := GetInput w "version" }

/-- The world `w` with the environment variable `key` set to `value`. -/
def World.setenv (w : World) (key value : GoString) : World :=
  { w with Getenv := fun k => if k = key then value else w.Getenv k }

/-! ## Sample worlds and sanity checks -/

/-- A world with the given environment, command result and `os.Stat` answer, in
which every write succeeds. -/
def sampleWorld (env : List (String × String)) (cmd : CmdResult) (stat : StatResult) : World where
  Getenv k := ((env.map fun p => (str p.1, str p.2)).lookup k).getD []
  Run _ _ := cmd
  WriteFile _ _ _ := none
  Stat _ := stat
  jsonShortEscapes := true

/-- A command result with exit status zero and the given standard output. -/
def exitZero (stdout : GoString) : CmdResult := ⟨stdout, [], [], none⟩

/-- A push build of `hashicorp/vault` on branch `dev`: every variable the program
reads is set except `GITHUB_HEAD_REF`; the version command, if run, prints
`1.2.3` and a newline. -/
def pushWorld : World :=
  sampleWorld
    [("GITHUB_RUN_ID", "7"), ("GITHUB_REF", "refs/heads/dev"),
      ("GITHUB_REPOSITORY", "hashicorp/vault"), ("GITHUB_SHA", "abc")]
    (exitZero "1.2.3\n") (.info false)

/-- The push build started by the action runner with the inputs of
`fullInput`, given with white space around them; the generated path is a
regular file when `run` checks it. -/
def actionWorld : World :=
  sampleWorld
    [("GITHUB_RUN_ID", "7"), ("GITHUB_REF", "refs/heads/dev"),
      ("GITHUB_REPOSITORY", "hashicorp/vault"), ("GITHUB_SHA", "abc"),
      ("INPUT_BRANCH", "main"), ("INPUT_FILEPATH", " /tmp/out"), ("INPUT_PRODUCT", "vault "),
      ("INPUT_REPO", "vault"), ("INPUT_SHA", "abc"), ("INPUT_VERSION", "1.2.3\n")]
    (exitZero "1.2.3\n") (.info false)

/-- The push build started by the action runner with the version command
`git describe --tags`, which prints `1.2.3` and a newline. -/
def commandWorld : World :=
  sampleWorld
    [("GITHUB_RUN_ID", "7"), ("GITHUB_REF", "refs/heads/dev"),
      ("GITHUB_REPOSITORY", "hashicorp/vault"), ("GITHUB_SHA", "abc"),
      ("INPUT_PRODUCT", "vault"), ("INPUT_VERSION", "  git describe --tags ")]
    (exitZero "1.2.3\n") (.info false)

/-- The push build where every command exits zero and prints one newline. -/
def newlineWorld : World :=
  { pushWorld with Run := fun _ _ => exitZero "\n" }

/-- The push build where every command exits zero without printing
anything. -/
def silentWorld : World :=
  { pushWorld with Run := fun _ _ => exitZero "" }

/-- The push build where every command fails with exit status 1. -/
def failingWorld : World :=
  { pushWorld with
    Run := fun _ _ => ⟨"", "fatal", "/usr/bin/git describe", some (str "exit status 1")⟩ }

/-- The push build where every command prints `1.2.3` and two newlines. -/
def twoNewlinesWorld : World :=
  { pushWorld with Run := fun _ _ => exitZero "1.2.3\n\n" }

/-- An input that supplies everything, with a literal version. -/
def fullInput : input :=
  { branch := "main", filePath := "/tmp/out", metadataFileName := "", product := "vault",
    repo := "vault", org := "", sha := "abc", version := "1.2.3" }

example : inputOf actionWorld = fullInput := by decide
example : (inputOf commandWorld).version = str "git describe --tags" := by decide
example :
    createMetadataJson (pushWorld.setenv "GITHUB_REF" "refs/heads/main")
      { fullInput with branch := "", repo := "" } =
    ⟨.ok "/tmp/out/metadata.json",
      [.writeFile "/tmp/out/metadata.json"
        (str ("\x7b\n\t\t\"branch\": \"main\",\n\t\t\"buildworkflowid\": \"7\",\n" ++
         "\t\t\"product\": \"vault\",\n\t\t\"repo\": \"vault\",\n" ++
         "\t\t\"org\": \"hashicorp\",\n\t\t\"sha\": \"abc\",\n" ++
         "\t\t\"version\": \"1.2.3\"\n\x7d")) 0o644]⟩ := by
  decide

example : str "a/é€😀" =
    [0x61, 0x2f, 0xC3, 0xA9, 0xE2, 0x82, 0xAC, 0xF0, 0x9F, 0x98, 0x80] := by decide
example : DecodeRuneInString (str "é€") = (0xE9, 2) := by decide
example : DecodeRuneInString (str "€") = (0x20AC, 3) := by decide
example : DecodeRuneInString (str "😀x") = (0x1F600, 4) := by decide
example : DecodeRuneInString [0xE2, 0x82] = (RuneError, 1) := by decide
example : DecodeRuneInString [0xED, 0xA0, 0x80] = (RuneError, 1) := by decide
example : DecodeRuneInString [0xC0, 0x80] = (RuneError, 1) := by decide
example : DecodeLastRuneInString (str "a€") = (0x20AC, 3) := by decide
example : DecodeLastRuneInString [0x61, 0x82, 0xAC] = (RuneError, 1) := by decide
example : TrimSpace (str "  \t git describe \n") = str "git describe" := by decide
example : TrimSpace (str " \u00a0 é x \u2028 ") = str "é x" := by decide
example : TrimSpace (str "   ") = str "" := by decide
example : TrimSpace [0x20, 0xFF, 0x20] = [0xFF] := by decide
example : Split (str "hashicorp/vault") 0x2f = [str "hashicorp", str "vault"] := by decide
example : Split (str "") 0x2f = [str ""] := by decide
example : Split (str "a//b/") 0x2f = [str "a", str "", str "b", str ""] := by decide
example : Fields (str "  git  describe --tags\n") =
    [str "git", str "describe", str "--tags"] := by decide
example : Fields (str "a\u00a0b\u2003é") = [str "a", str "b", str "é"] := by decide
example : Fields (str " ") = [] := by decide
example : TrimPrefix (str "refs/heads/main") (str "refs/heads/") = str "main" := by decide
example : TrimSuffix (str "1.2.3\n\n") (str "\n") = str "1.2.3\n" := by decide
example : Contains (str "a b") (str " ") := by decide

example : Join [str "/tmp/out", str "metadata.json"] = str "/tmp/out/metadata.json" := by decide
example : Join [str "", str "metadata.json"] = str "metadata.json" := by decide
example : Join [str "", str "/tmp/out/abs.json"] = str "/tmp/out/abs.json" := by decide
example : Join [str "/tmp/out/", str "metadata.json"] = str "/tmp/out/metadata.json" := by decide
example : Join [str "a/b/../c/.", str "../x"] = str "a/x" := by decide
example : Join [str "../a", str "../../../x"] = str "../../../x" := by decide
example : Join [str "/..", str "../x/"] = str "/x" := by decide
example : Clean (str "abc/def/../../..") = str ".." := by decide
example : Clean (str "/../abc") = str "/abc" := by decide
example : Clean (str "abc//./../def") = str "def" := by decide
example : Clean (str "") = str "." := by decide
example : Clean (str "abc/../../././../def") = str "../../def" := by decide
example : jsonKey "Repo" "json:\"repo\"\"" = "repo" := by decide
example : jsonKey "Repo" "yaml:\"x\" json:\"repo,omitempty\"" = "repo" := by decide
example : jsonKey "Repo" "json:repo" = "Repo" := by decide
example : encodeString true (str "a\"b\\c\n<\x01>é\u2028") =
    str "\"a\\\"b\\\\c\\n\\u003c\\u0001\\u003eé\\u2028\"" := by decide
example : encodeString true [0x61, 0xFF, 0x62] = str "\"a\\ufffdb\"" := by decide
example : encodeString true [0xE2, 0x82] = str "\"\\ufffd\\ufffd\"" := by decide
example : decodeString (str "\"a\\\"b\\\\c\\n\\u003c\\u0001\\u003e\"")
    = some (str "a\"b\\c\n<\x01>") := by decide
example : decodeString (str "\"\\ud83d\\ude00 \\/é\"") = some (str "😀 /é") := by decide
example : decodeString (str "\"a\nb\"") = none := by decide
example : decodeString (str "\"a\" \"") = none := by decide
example : decodeString (encodeString true [0x61, 0xFF, 0x62]) = some (str "a\uFFFDb") := by
  decide
example : toValid [0x61, 0xFF, 0x62] = str "a\uFFFDb" := by decide
example : ValidString (str "é€😀 ok") = true := by decide
example : ValidString [0x61, 0xFF] = false := by decide

/-! ## Lemmas on the library functions -/

theorem singleton_infix_iff_mem {α : Type} (c : α) (l : List α) : [c] <:+: l ↔ c ∈ l := by
  constructor
  · rintro ⟨a, b, h⟩
    rw [← h]; simp
  · intro h
    obtain ⟨a, b, rfl⟩ := List.append_of_mem h
    exact ⟨a, b, by simp⟩

theorem contains_space_iff (s : GoString) : Contains s " " ↔ (0x20 : Byte) ∈ s := by
  unfold Contains
  exact singleton_infix_iff_mem 0x20 s

theorem contains_slash_iff (s : GoString) : Contains s "/" ↔ (0x2f : Byte) ∈ s := by
  unfold Contains
  exact singleton_infix_iff_mem 0x2f s

theorem splitList_ne_nil {α : Type} [DecidableEq α] (sep : α) (l : List α) :
    splitList sep l ≠ [] := by
  cases l with
  | nil => simp [splitList]
  | cons c cs =>
    unfold splitList
    split_ifs
    · simp
    · split <;> simp

theorem splitList_of_not_mem {α : Type} [DecidableEq α] (sep : α) (l : List α) (h : sep ∉ l) :
    splitList sep l = [l] := by
  induction l with
  | nil => rfl
  | cons c cs ih =>
    have hc : c ≠ sep := fun e => h (by simp [e])
    have hcs : sep ∉ cs := fun e => h (by simp [e])
    simp [splitList, hc, ih hcs]

theorem splitList_append_sep {α : Type} [DecidableEq α] (sep : α) (a b : List α)
    (h : sep ∉ a) : splitList sep (a ++ sep :: b) = a :: splitList sep b := by
  induction a with
  | nil => simp [splitList]
  | cons c cs ih =>
    have hc : c ≠ sep := fun e => h (by simp [e])
    have hcs : sep ∉ cs := fun e => h (by simp [e])
    simp [splitList, hc, ih hcs]

/-- Cutting at the separator gives back the lines that were joined with it. -/
theorem splitList_intercalate {α : Type} [DecidableEq α] (sep : α) (ls : List (List α))
    (hne : ls ≠ []) (h : ∀ l ∈ ls, sep ∉ l) :
    splitList sep (List.intercalate [sep] ls) = ls := by
  induction ls with
  | nil => exact absurd rfl hne
  | cons l rest ih =>
    cases rest with
    | nil =>
      have hi : List.intercalate [sep] [l] = l := by simp [List.intercalate]
      rw [hi, splitList_of_not_mem _ _ (h l (by simp))]
    | cons l' rest' =>
      have hi : List.intercalate [sep] (l :: l' :: rest') =
          l ++ sep :: List.intercalate [sep] (l' :: rest') := by
        simp [List.intercalate]
      rw [hi, splitList_append_sep _ _ _ (h l (by simp)),
        ih (by simp) (fun x hx => h x (by simp [hx]))]

theorem split_second_none_iff (s : GoString) :
    (Split s 0x2f)[1]? = none ↔ ¬ Contains s "/" := by
  rw [contains_slash_iff]
  unfold Split
  constructor
  · intro h hm
    obtain ⟨a', b', hab', hna⟩ := List.eq_append_cons_of_mem hm
    rw [hab', splitList_append_sep _ _ _ hna] at h
    have := splitList_ne_nil (0x2f : Byte) b'
    cases hsp : splitList (0x2f : Byte) b' with
    | nil => exact this hsp
    | cons x xs => rw [hsp] at h; simp at h
  · intro h
    rw [splitList_of_not_mem _ _ h]
    rfl

/-- Second piece of a split: the text between the first and the second
separator, or up to the end. -/
theorem split_second (s org repo rest : GoString)
    (hs : s = org ++ 0x2f :: repo ++ rest) (ho : (0x2f : Byte) ∉ org)
    (hr : (0x2f : Byte) ∉ repo) (hrest : rest = [] ∨ rest.head? = some 0x2f) :
    (Split s 0x2f)[1]? = some repo := by
  unfold Split
  have h1 : s = org ++ 0x2f :: (repo ++ rest) := by simp [hs]
  rw [h1, splitList_append_sep _ _ _ ho]
  rcases hrest with h | h
  · subst h
    simp [splitList_of_not_mem _ _ hr]
  · cases rest with
    | nil => simp at h
    | cons c t =>
      simp only [List.head?_cons, Option.some.injEq] at h
      subst h
      rw [splitList_append_sep _ _ _ hr]
      simp

/-- The function `strings.TrimSuffix` removes the suffix once. -/
theorem TrimSuffix_append (t x : GoString) : TrimSuffix (t ++ x) x = t := by
  unfold TrimSuffix
  have h : x <:+ t ++ x := ⟨t, rfl⟩
  rw [if_pos h]
  simp

/-- The function `strings.TrimSuffix` leaves a string without the suffix as it
is. -/
theorem TrimSuffix_of_not_suffix (s x : GoString) (h : ¬ x <:+ s) :
    TrimSuffix s x = s := by
  unfold TrimSuffix
  rw [if_neg h]

/-! ## Lemmas on the program -/

/-- The function `createMetadataJson` written with `outputPath`, `recordOf` and
`versionStep`. -/
theorem createMetadataJson_eq (w : World) (i : input) :
    createMetadataJson w i =
      if i.product = "" then ⟨.failed (.msg "Missing input 'product' value"), []⟩
      else
        match (if i.repo = "" then (Split (w.Getenv "GITHUB_REPOSITORY") 0x2f)[1]?
          else some i.repo) with
        | none => ⟨.panicked "runtime error: index out of range [1] with length 1", []⟩
        | some repository =>
          if w.Getenv "GITHUB_RUN_ID" = "" then ⟨.failed (.msg "GITHUB_RUN_ID is empty"), []⟩
          else if i.version = "" then
            ⟨.failed (.msg "The version or version command is not provided"), []⟩
          else
            match (versionStep w i).result with
            | .failed err => ⟨.failed (.reformat err), (versionStep w i).effects⟩
            | .panicked reason => ⟨.panicked reason, (versionStep w i).effects⟩
            | .ok version =>
              match w.WriteFile (outputPath i)
                (MarshalIndent w.jsonShortEscapes (recordOf w i repository version) "" "\t\t")
                0o644 with
              | some err =>
                ⟨.failed (.msg (str "Failed writing data into " ++ i.metadataFileName ++
                    str " file. Error: " ++ err ++ str "\n")),
                  (versionStep w i).effects ++
                    [.writeFile (outputPath i)
                      (MarshalIndent w.jsonShortEscapes (recordOf w i repository version)
                        "" "\t\t") 0o644]⟩
              | none =>
                ⟨.ok (outputPath i),
                  (versionStep w i).effects ++
                    [.writeFile (outputPath i)
                      (MarshalIndent w.jsonShortEscapes (recordOf w i repository version)
                        "" "\t\t") 0o644]⟩ := rfl

/-- Effects of `getVersion`: at most the run of one command. -/
theorem getVersion_effects (w : World) (c : GoString) :
    ∀ e ∈ (getVersion w c).effects, ∃ name args, e = .exec name args := by
  unfold getVersion execCommand
  cases Fields c with
  | nil => simp
  | cons name rest =>
    simp only
    cases (w.Run name rest).err with
    | none =>
      simp only
      split_ifs <;> simp
    | some err => simp

/-- Effects of the version step: at most the run of one command. -/
theorem versionStep_effects (w : World) (i : input) :
    ∀ e ∈ (versionStep w i).effects, ∃ name args, e = .exec name args := by
  unfold versionStep
  split_ifs
  · exact getVersion_effects w i.version
  · simp

/-- What a successful call of `createMetadataJson` resolved, returned and
wrote: the write is its last effect. -/
theorem createMetadataJson_ok {w : World} {i : input} {p : GoString}
    (h : (createMetadataJson w i).result = .ok p) :
    ∃ repository version,
      i.product ≠ "" ∧ w.Getenv "GITHUB_RUN_ID" ≠ "" ∧ i.version ≠ "" ∧
      (if i.repo = "" then (Split (w.Getenv "GITHUB_REPOSITORY") 0x2f)[1]? else some i.repo)
        = some repository ∧
      (versionStep w i).result = .ok version ∧
      p = outputPath i ∧
      (createMetadataJson w i).effects =
        (versionStep w i).effects ++
        [.writeFile p
          (MarshalIndent w.jsonShortEscapes (recordOf w i repository version) "" "\t\t")
          0o644] := by
  rw [createMetadataJson_eq] at h ⊢
  by_cases hp : i.product = ""
  · simp [hp] at h
  simp only [hp, if_false] at h ⊢
  cases hr : (if i.repo = "" then (Split (w.Getenv "GITHUB_REPOSITORY") 0x2f)[1]?
      else some i.repo) with
  | none => simp [hr] at h
  | some repository =>
    simp only [hr] at h ⊢
    by_cases hid : w.Getenv "GITHUB_RUN_ID" = ""
    · simp [hid] at h
    simp only [hid, if_false] at h ⊢
    by_cases hv : i.version = ""
    · simp [hv] at h
    simp only [hv, if_false] at h ⊢
    cases hres : (versionStep w i).result with
    | failed e => simp [hres] at h
    | panicked e => simp [hres] at h
    | ok version =>
      simp only [hres] at h ⊢
      refine ⟨repository, version, hp, hid, hv, rfl, rfl, ?_⟩
      split at h
      · simp at h
      · simp only [Outcome.ok.injEq] at h
        subst h
        simp

/-- Conditions under which `createMetadataJson` succeeds, and what it then
does: one write, of the marshalled record, to the joined path. -/
theorem createMetadataJson_succeeds {w : World} {i : input} {repository version : GoString}
    {veff : List Effect}
    (hp : i.product ≠ "") (hid : w.Getenv "GITHUB_RUN_ID" ≠ "") (hv : i.version ≠ "")
    (hr : (if i.repo = "" then (Split (w.Getenv "GITHUB_REPOSITORY") 0x2f)[1]? else some i.repo)
      = some repository)
    (hver : versionStep w i = ⟨.ok version, veff⟩)
    (hfs : ∀ data, w.WriteFile (outputPath i) data 0o644 = none) :
    createMetadataJson w i =
      ⟨.ok (outputPath i),
        veff ++ [.writeFile (outputPath i)
          (MarshalIndent w.jsonShortEscapes (recordOf w i repository version) "" "\t\t")
          0o644]⟩ := by
  rw [createMetadataJson_eq]
  simp only [hp, hid, hv, hr, hver, if_false, hfs]

/-- With an empty version nothing is run or written, and the call does not
return a path. -/
theorem createMetadataJson_version_empty (w : World) (i : input) (hv : i.version = "") :
    (∀ p, (createMetadataJson w i).result ≠ .ok p) ∧ (createMetadataJson w i).effects = [] := by
  rw [createMetadataJson_eq]
  simp only [hv]
  split_ifs <;> first | (constructor <;> simp) | skip
  all_goals (split <;> simp)

/-- Without a repo input and without a slash in `GITHUB_REPOSITORY` nothing is
run or written, and the call does not return a path. -/
theorem createMetadataJson_no_repository (w : World) (i : input) (hr : i.repo = "")
    (hs : ¬ Contains (w.Getenv "GITHUB_REPOSITORY") "/") :
    (∀ p, (createMetadataJson w i).result ≠ .ok p) ∧ (createMetadataJson w i).effects = [] := by
  have h1 := (split_second_none_iff (w.Getenv "GITHUB_REPOSITORY")).mpr hs
  rw [createMetadataJson_eq]
  simp only [hr, h1, if_true]
  split_ifs <;> constructor <;> simp

/-- The repository name resolves when there is a repo input or a slash in
`GITHUB_REPOSITORY`. -/
theorem repository_resolves (w : World) (i : input)
    (hrepo : i.repo ≠ "" ∨ Contains (w.Getenv "GITHUB_REPOSITORY") "/") :
    ∃ r, (if i.repo = "" then (Split (w.Getenv "GITHUB_REPOSITORY") 0x2f)[1]?
      else some i.repo) = some r := by
  by_cases h : i.repo = ""
  · have hc : Contains (w.Getenv "GITHUB_REPOSITORY") "/" := by
      rcases hrepo with h' | h'
      · exact absurd h h'
      · exact h'
    cases hs : (Split (w.Getenv "GITHUB_REPOSITORY") 0x2f)[1]? with
    | none => exact absurd hc ((split_second_none_iff _).mp hs)
    | some r => exact ⟨r, by simp [h]⟩
  · exact ⟨i.repo, by simp [h]⟩

/-- A write of `createMetadataJson` comes after the record is resolved: it is
the write of the marshalled record to the joined path, with mode 0644. -/
theorem createMetadataJson_write {w : World} {i : input} {path data : GoString} {perm : Nat}
    (h : Effect.writeFile path data perm ∈ (createMetadataJson w i).effects) :
    ∃ repository version,
      (if i.repo = "" then (Split (w.Getenv "GITHUB_REPOSITORY") 0x2f)[1]? else some i.repo)
        = some repository ∧
      (versionStep w i).result = .ok version ∧
      path = outputPath i ∧ perm = 0o644 ∧
      data = MarshalIndent w.jsonShortEscapes (recordOf w i repository version) "" "\t\t" ∧
      (createMetadataJson w i).effects =
        (versionStep w i).effects ++ [.writeFile path data perm] := by
  have hnot : Effect.writeFile path data perm ∉ (versionStep w i).effects := by
    intro hm
    obtain ⟨_, _, he⟩ := versionStep_effects w i _ hm
    cases he
  rw [createMetadataJson_eq] at h ⊢
  by_cases hp : i.product = ""
  · simp [hp] at h
  simp only [hp, if_false] at h ⊢
  cases hr : (if i.repo = "" then (Split (w.Getenv "GITHUB_REPOSITORY") 0x2f)[1]?
      else some i.repo) with
  | none => simp [hr] at h
  | some repository =>
    simp only [hr] at h ⊢
    by_cases hid : w.Getenv "GITHUB_RUN_ID" = ""
    · simp [hid] at h
    simp only [hid, if_false] at h ⊢
    by_cases hver : i.version = ""
    · simp [hver] at h
    simp only [hver, if_false] at h ⊢
    cases hres : (versionStep w i).result with
    | failed err => simp only [hres] at h; exact absurd h hnot
    | panicked reason => simp only [hres] at h; exact absurd h hnot
    | ok version =>
      simp only [hres] at h ⊢
      cases hw : w.WriteFile (outputPath i)
          (MarshalIndent w.jsonShortEscapes (recordOf w i repository version) "" "\t\t")
          0o644 with
      | none =>
        simp only [hw] at h ⊢
        rcases List.mem_append.mp h with h | h
        · exact absurd h hnot
        · simp only [List.mem_singleton, Effect.writeFile.injEq] at h
          obtain ⟨h1, h2, h3⟩ := h
          subst h1 h2 h3
          exact ⟨repository, version, rfl, rfl, rfl, rfl, rfl, rfl⟩
      | some err =>
        simp only [hw] at h ⊢
        rcases List.mem_append.mp h with h | h
        · exact absurd h hnot
        · simp only [List.mem_singleton, Effect.writeFile.injEq] at h
          obtain ⟨h1, h2, h3⟩ := h
          subst h1 h2 h3
          exact ⟨repository, version, rfl, rfl, rfl, rfl, rfl, rfl⟩

/-- Effects of `createMetadataJson`: runs of a command and writes of a file. -/
theorem createMetadataJson_effects (w : World) (i : input) :
    ∀ e ∈ (createMetadataJson w i).effects,
      (∃ name args, e = .exec name args) ∨ (∃ path data perm, e = .writeFile path data perm) := by
  have hv := versionStep_effects w i
  rw [createMetadataJson_eq]
  by_cases hp : i.product = ""
  · simp [hp]
  simp only [hp, if_false]
  cases (if i.repo = "" then (Split (w.Getenv "GITHUB_REPOSITORY") 0x2f)[1]?
      else some i.repo) with
  | none => simp
  | some repository =>
    simp only
    by_cases hid : w.Getenv "GITHUB_RUN_ID" = ""
    · simp [hid]
    simp only [hid, if_false]
    by_cases hver : i.version = ""
    · simp [hver]
    simp only [hver, if_false]
    cases (versionStep w i).result with
    | failed err => intro e he; exact Or.inl (hv e he)
    | panicked reason => intro e he; exact Or.inl (hv e he)
    | ok version =>
      simp only
      cases w.WriteFile (outputPath i)
          (MarshalIndent w.jsonShortEscapes (recordOf w i repository version) "" "\t\t")
          0o644 with
      | none =>
        intro e he
        rcases List.mem_append.mp he with h | h
        · exact Or.inl (hv e h)
        · simp at h; exact Or.inr ⟨_, _, _, h⟩
      | some err =>
        intro e he
        rcases List.mem_append.mp he with h | h
        · exact Or.inl (hv e h)
        · simp at h; exact Or.inr ⟨_, _, _, h⟩

/-- The function `run` is `createMetadataJson` on the inputs read, followed by
the check of the generated path. -/
theorem run_eq (w : World) :
    run w =
      match (createMetadataJson w (inputOf w)).result with
      | .failed err => ⟨.failed err, (createMetadataJson w (inputOf w)).effects⟩
      | .panicked reason => ⟨.panicked reason, (createMetadataJson w (inputOf w)).effects⟩
      | .ok generatedFile =>
        match checkFileIsExist w generatedFile with
        | some err => ⟨.failed err, (createMetadataJson w (inputOf w)).effects⟩
        | none =>
          ⟨.ok (), (createMetadataJson w (inputOf w)).effects ++
            [.setOutput "filepath" generatedFile, .setEnv "filepath" generatedFile]⟩ := rfl

/-- What `getVersion` does once the command line has a program name. -/
theorem getVersion_eq (w : World) (c name : GoString) (args : List GoString)
    (hf : Fields c = name :: args) :
    getVersion w c =
      match (w.Run name args).err with
      | some err =>
        ⟨.failed (.msg (str "Failed to run " ++ name ++ str " command " ++
          (w.Run name args).cmdString ++ str ": " ++ err)), [.exec name args]⟩
      | none =>
        if (w.Run name args).stdout = "" then
          ⟨.failed (.msg (str "Failed to setup version using " ++ c ++ str " command")),
            [.exec name args]⟩
        else ⟨.ok (TrimSuffix (w.Run name args).stdout "\n"), [.exec name args]⟩ := by
  unfold getVersion execCommand
  rw [hf]
  simp only
  cases (w.Run name args).err with
  | none => simp only
  | some err => simp only

/-! ### Lemmas on `utf8.DecodeRuneInString` -/

/-- An ASCII byte decodes to itself. -/
theorem decode_ascii (b : Byte) (t : GoString) (h : b.val < 0x80) :
    DecodeRuneInString (b :: t) = (b.val, 1) := by
  simp [DecodeRuneInString, first, h]

/-- The width of the first rune of a non-empty string is between 1 and 4 and
within the string. -/
theorem decode_width (s0 : Byte) (t : GoString) :
    1 ≤ (DecodeRuneInString (s0 :: t)).2 ∧
    (DecodeRuneInString (s0 :: t)).2 ≤ 4 ∧
    (DecodeRuneInString (s0 :: t)).2 ≤ (s0 :: t).length := by
  rcases t with _ | ⟨s1, _ | ⟨s2, _ | ⟨s3, t3⟩⟩⟩ <;>
    simp only [DecodeRuneInString] <;> split_ifs <;> simp

theorem first_invalid (b : Nat) (h : (0x80 ≤ b ∧ b < 0xC2) ∨ 0xF4 < b) : first b = 0xF1 := by
  unfold first
  split_ifs <;> omega

theorem first_two (b : Nat) (h : 0xC2 ≤ b ∧ b < 0xE0) : first b = 0x02 := by
  unfold first
  split_ifs <;> omega

theorem first_three (b : Nat) (h : (0xE0 < b ∧ b < 0xED) ∨ (0xED < b ∧ b < 0xF0)) :
    first b = 0x03 := by
  unfold first
  split_ifs <;> omega

theorem first_four (b : Nat) (h : 0xF0 < b ∧ b < 0xF4) : first b = 0x04 := by
  unfold first
  split_ifs <;> omega

/-- A byte that cannot start an encoding decodes to `RuneError`. -/
theorem decode_invalid_first (s0 : Byte) (t : GoString)
    (h : (0x80 ≤ s0.val ∧ s0.val < 0xC2) ∨ 0xF4 < s0.val) :
    DecodeRuneInString (s0 :: t) = (RuneError, 1) := by
  rw [DecodeRuneInString]
  simp [first_invalid _ h]

/-- Decoding after a first byte that announces two bytes: the next byte is
in the accept range and the rune is decoded, whatever follows, or the result is
`RuneError`. -/
theorem decode_two_aux (s0 : Byte) (t : GoString) (x lo hi : Nat)
    (hx : first s0.val = x) (hxlt : x < 0xF0) (hsz : x % 8 = 2)
    (hlo : acceptLo (x / 16) = lo) (hhi : acceptHi (x / 16) = hi) :
    (∃ s1 t1, t = s1 :: t1 ∧ (lo ≤ s1.val ∧ s1.val ≤ hi) ∧
      ∀ y, DecodeRuneInString (s0 :: s1 :: y) = (s0.val % 32 * 64 + s1.val % 64, 2)) ∨
    DecodeRuneInString (s0 :: t) = (RuneError, 1) := by
  have hge : ¬ (x ≥ 0xF0) := by omega
  cases t with
  | nil => right; simp [DecodeRuneInString, hx, hge, hsz]
  | cons s1 t1 =>
    by_cases h1 : s1.val < lo ∨ hi < s1.val
    · right
      simp [DecodeRuneInString, hx, hge, hsz, hlo, hhi, h1]
    · left
      refine ⟨s1, t1, rfl, by omega, ?_⟩
      intro y
      simp [DecodeRuneInString, hx, hge, hsz, hlo, hhi, h1]

/-- Decoding after a first byte that announces three bytes. -/
theorem decode_three_aux (s0 : Byte) (t : GoString) (x lo hi : Nat)
    (hx : first s0.val = x) (hxlt : x < 0xF0) (hsz : x % 8 = 3)
    (hlo : acceptLo (x / 16) = lo) (hhi : acceptHi (x / 16) = hi) :
    (∃ s1 s2 t2, t = s1 :: s2 :: t2 ∧ (lo ≤ s1.val ∧ s1.val ≤ hi) ∧
      (0x80 ≤ s2.val ∧ s2.val ≤ 0xBF) ∧
      ∀ y, DecodeRuneInString (s0 :: s1 :: s2 :: y) =
        (s0.val % 16 * 4096 + s1.val % 64 * 64 + s2.val % 64, 3)) ∨
    DecodeRuneInString (s0 :: t) = (RuneError, 1) := by
  have hge : ¬ (x ≥ 0xF0) := by omega
  rcases t with _ | ⟨s1, _ | ⟨s2, t2⟩⟩
  · right; simp [DecodeRuneInString, hx, hge, hsz]
  · right; simp [DecodeRuneInString, hx, hge, hsz]
  · by_cases h1 : s1.val < lo ∨ hi < s1.val
    · right
      simp [DecodeRuneInString, hx, hge, hsz, hlo, hhi, h1]
    · by_cases h2 : s2.val < 0x80 ∨ 0xBF < s2.val
      · right
        simp [DecodeRuneInString, hx, hge, hsz, hlo, hhi, h1, h2]
      · left
        refine ⟨s1, s2, t2, rfl, by omega, by omega, ?_⟩
        intro y
        simp [DecodeRuneInString, hx, hge, hsz, hlo, hhi, h1, h2]

/-- Decoding after a first byte that announces four bytes. -/
theorem decode_four_aux (s0 : Byte) (t : GoString) (x lo hi : Nat)
    (hx : first s0.val = x) (hxlt : x < 0xF0) (hsz : x % 8 = 4)
    (hlo : acceptLo (x / 16) = lo) (hhi : acceptHi (x / 16) = hi) :
    (∃ s1 s2 s3 t3, t = s1 :: s2 :: s3 :: t3 ∧ (lo ≤ s1.val ∧ s1.val ≤ hi) ∧
      (0x80 ≤ s2.val ∧ s2.val ≤ 0xBF) ∧ (0x80 ≤ s3.val ∧ s3.val ≤ 0xBF) ∧
      ∀ y, DecodeRuneInString (s0 :: s1 :: s2 :: s3 :: y) =
        (s0.val % 8 * 262144 + s1.val % 64 * 4096 + s2.val % 64 * 64 + s3.val % 64, 4)) ∨
    DecodeRuneInString (s0 :: t) = (RuneError, 1) := by
  have hge : ¬ (x ≥ 0xF0) := by omega
  rcases t with _ | ⟨s1, _ | ⟨s2, _ | ⟨s3, t3⟩⟩⟩
  · right; simp [DecodeRuneInString, hx, hge, hsz]
  · right; simp [DecodeRuneInString, hx, hge, hsz]
  · right; simp [DecodeRuneInString, hx, hge, hsz]
  · by_cases h1 : s1.val < lo ∨ hi < s1.val
    · right
      simp [DecodeRuneInString, hx, hge, hsz, hlo, hhi, h1]
    · by_cases h2 : s2.val < 0x80 ∨ 0xBF < s2.val
      · right
        simp [DecodeRuneInString, hx, hge, hsz, hlo, hhi, h1, h2]
      · by_cases h3 : s3.val < 0x80 ∨ 0xBF < s3.val
        · right
          simp [DecodeRuneInString, hx, hge, hsz, hlo, hhi, h1, h2, h3]
        · left
          refine ⟨s1, s2, s3, t3, rfl, by omega, by omega, by omega, ?_⟩
          intro y
          simp [DecodeRuneInString, hx, hge, hsz, hlo, hhi, h1, h2, h3]

/-- What a string that starts with a byte that is not ASCII decodes to: either
`RuneError` with width 1, or a rune `r` of width `n` between 2 and 4 whose `n`
bytes are all 0x80 or more and decode to `r` whatever follows them; a rune from
U+0800 to U+FFFF has width 3, and the line and paragraph separators are encoded
as E2 80 A8 and E2 80 A9. -/
theorem decode_shape (s0 : Byte) (t : GoString) (h : 0x80 ≤ s0.val) :
    DecodeRuneInString (s0 :: t) = (RuneError, 1) ∨
    ∃ (enc rest : GoString) (r : Nat),
      s0 :: t = enc ++ rest ∧ 2 ≤ enc.length ∧ enc.length ≤ 4 ∧
      (∀ b ∈ enc, 0x80 ≤ b.val) ∧
      (∀ y, DecodeRuneInString (enc ++ y) = (r, enc.length)) ∧
      (r = 0x2028 → enc = [0xE2, 0x80, 0xA8]) ∧ (r = 0x2029 → enc = [0xE2, 0x80, 0xA9]) := by
  have hlt := s0.isLt
  by_cases c1 : s0.val < 0xC2 ∨ 0xF4 < s0.val
  · left
    exact decode_invalid_first s0 t (by omega)
  by_cases c2 : s0.val < 0xE0
  · -- two bytes
    rcases decode_two_aux s0 t 0x02 0x80 0xBF (first_two _ (by omega)) (by omega) rfl rfl rfl
      with ⟨s1, t1, rfl, hs1, hd⟩ | hd
    · right
      refine ⟨[s0, s1], t1, _, rfl, by simp, by simp, ?_, hd, ?_, ?_⟩
      · intro b hb
        simp only [List.mem_cons, List.mem_singleton, List.not_mem_nil, or_false] at hb
        rcases hb with rfl | rfl <;> omega
      · intro hr; omega
      · intro hr; omega
    · exact Or.inl hd
  by_cases c3 : s0.val < 0xF0
  · -- three bytes
    have key : (∃ s1 s2 t2, t = s1 :: s2 :: t2 ∧ (0x80 ≤ s1.val ∧ s1.val ≤ 0xBF) ∧
        (0x80 ≤ s2.val ∧ s2.val ≤ 0xBF) ∧
        ∀ y, DecodeRuneInString (s0 :: s1 :: s2 :: y) =
          (s0.val % 16 * 4096 + s1.val % 64 * 64 + s2.val % 64, 3)) ∨
        DecodeRuneInString (s0 :: t) = (RuneError, 1) := by
      by_cases hA : s0.val = 0xE0
      · rcases decode_three_aux s0 t 0x13 0xA0 0xBF (by rw [hA]; rfl) (by omega) rfl rfl rfl
          with ⟨s1, s2, t2, e, hs1, hs2, hd⟩ | hd
        · exact Or.inl ⟨s1, s2, t2, e, by omega, hs2, hd⟩
        · exact Or.inr hd
      · by_cases hB : s0.val = 0xED
        · rcases decode_three_aux s0 t 0x23 0x80 0x9F (by rw [hB]; rfl) (by omega) rfl rfl rfl
            with ⟨s1, s2, t2, e, hs1, hs2, hd⟩ | hd
          · exact Or.inl ⟨s1, s2, t2, e, by omega, hs2, hd⟩
          · exact Or.inr hd
        · exact decode_three_aux s0 t 0x03 0x80 0xBF (first_three _ (by omega)) (by omega)
            rfl rfl rfl
    rcases key with ⟨s1, s2, t2, rfl, hs1, hs2, hd⟩ | hd
    · right
      have h1 := s1.isLt
      have h2 := s2.isLt
      refine ⟨[s0, s1, s2], t2, _, rfl, by simp, by simp, ?_, hd, ?_, ?_⟩
      · intro b hb
        simp only [List.mem_cons, List.mem_singleton, List.not_mem_nil, or_false] at hb
        rcases hb with rfl | rfl | rfl <;> omega
      · intro hr
        have e0 : s0 = 0xE2 := Fin.ext (by show s0.val = 226; omega)
        have e1 : s1 = 0x80 := Fin.ext (by show s1.val = 128; omega)
        have e2 : s2 = 0xA8 := Fin.ext (by show s2.val = 168; omega)
        rw [e0, e1, e2]
      · intro hr
        have e0 : s0 = 0xE2 := Fin.ext (by show s0.val = 226; omega)
        have e1 : s1 = 0x80 := Fin.ext (by show s1.val = 128; omega)
        have e2 : s2 = 0xA9 := Fin.ext (by show s2.val = 169; omega)
        rw [e0, e1, e2]
    · exact Or.inl hd
  · -- four bytes
    have key : (∃ s1 s2 s3 t3, t = s1 :: s2 :: s3 :: t3 ∧ (0x80 ≤ s1.val ∧ s1.val ≤ 0xBF) ∧
        (0x80 ≤ s2.val ∧ s2.val ≤ 0xBF) ∧ (0x80 ≤ s3.val ∧ s3.val ≤ 0xBF) ∧
        (s0.val = 0xF0 → 0x90 ≤ s1.val) ∧
        ∀ y, DecodeRuneInString (s0 :: s1 :: s2 :: s3 :: y) =
          (s0.val % 8 * 262144 + s1.val % 64 * 4096 + s2.val % 64 * 64 + s3.val % 64, 4)) ∨
        DecodeRuneInString (s0 :: t) = (RuneError, 1) := by
      by_cases hA : s0.val = 0xF0
      · rcases decode_four_aux s0 t 0x34 0x90 0xBF (by rw [hA]; rfl) (by omega) rfl rfl rfl
          with ⟨s1, s2, s3, t3, e, hs1, hs2, hs3, hd⟩ | hd
        · exact Or.inl ⟨s1, s2, s3, t3, e, by omega, hs2, hs3, fun _ => hs1.1, hd⟩
        · exact Or.inr hd
      · by_cases hB : s0.val = 0xF4
        · rcases decode_four_aux s0 t 0x44 0x80 0x8F (by rw [hB]; rfl) (by omega) rfl rfl rfl
            with ⟨s1, s2, s3, t3, e, hs1, hs2, hs3, hd⟩ | hd
          · exact Or.inl ⟨s1, s2, s3, t3, e, by omega, hs2, hs3, fun h => absurd h hA, hd⟩
          · exact Or.inr hd
        · rcases decode_four_aux s0 t 0x04 0x80 0xBF (first_four _ (by omega)) (by omega)
            rfl rfl rfl with ⟨s1, s2, s3, t3, e, hs1, hs2, hs3, hd⟩ | hd
          · exact Or.inl ⟨s1, s2, s3, t3, e, hs1, hs2, hs3, fun h => absurd h hA, hd⟩
          · exact Or.inr hd
    rcases key with ⟨s1, s2, s3, t3, rfl, hs1, hs2, hs3, hF0, hd⟩ | hd
    · right
      refine ⟨[s0, s1, s2, s3], t3, _, rfl, by simp, by simp, ?_, hd, ?_, ?_⟩
      · intro b hb
        simp only [List.mem_cons, List.mem_singleton, List.not_mem_nil, or_false] at hb
        rcases hb with rfl | rfl | rfl | rfl <;> omega
      · intro hr
        exfalso
        by_cases hA : s0.val = 0xF0
        · have := hF0 hA
          omega
        · omega
      · intro hr
        exfalso
        by_cases hA : s0.val = 0xF0
        · have := hF0 hA
          omega
        · omega
    · exact Or.inl hd

/-- The shape of the first rune as the encoder of `encoding/json` reads it, on
at most `utf8.UTFMax` bytes. -/
theorem decode_take4_shape (b : Byte) (rest : GoString) (h : 0x80 ≤ b.val) :
    DecodeRuneInString ((b :: rest).take 4) = (RuneError, 1) ∨
    ∃ (enc tail : GoString) (r : Nat),
      b :: rest = enc ++ tail ∧ 2 ≤ enc.length ∧ enc.length ≤ 4 ∧
      (∀ x ∈ enc, 0x80 ≤ x.val) ∧
      DecodeRuneInString ((b :: rest).take 4) = (r, enc.length) ∧
      (r = 0x2028 → enc = [0xE2, 0x80, 0xA8]) ∧ (r = 0x2029 → enc = [0xE2, 0x80, 0xA9]) := by
  have ht : (b :: rest).take 4 = b :: rest.take 3 := rfl
  rcases decode_shape b (rest.take 3) h with hd | ⟨enc, tail, r, he, h2, h4, hall, hd, hl, hp⟩
  · left; rw [ht]; exact hd
  · right
    refine ⟨enc, tail ++ (b :: rest).drop 4, r, ?_, h2, h4, hall, ?_, hl, hp⟩
    · rw [← List.append_assoc, ← he, ← ht, List.take_append_drop]
    · rw [ht, he]; exact hd tail

/-! ### Reading back what `encoding/json` writes -/

theorem hexVal_hex : ∀ k, k < 16 → hexVal (hex k) = some k := by decide

theorem hex4_low (n : Nat) (hn : n < 0x80) :
    hex4 0x30 0x30 (hex (n / 16)) (hex (n % 16)) = some n := by
  have h1 : hexVal (hex (n / 16)) = some (n / 16) := hexVal_hex _ (by omega)
  have h2 : hexVal (hex (n % 16)) = some (n % 16) := hexVal_hex _ (by omega)
  have h0 : hexVal 0x30 = some 0 := by decide
  unfold hex4
  rw [h0, h1, h2]
  simp only [Option.some.injEq]
  omega

/-- A byte that is not the quote, the backslash or a control character reads
as itself. -/
theorem decodeBody_plain (c : Byte) (rest : GoString) (fuel : Nat)
    (hq : c ≠ 0x22) (hb : c ≠ 0x5C) (hc : ¬ c.val < 0x20) :
    decodeBody (fuel + 1) (c :: rest) = (decodeBody fuel rest).map ([c] ++ ·) := by
  simp only [decodeBody, decodeStep, hq, hb, hc, if_false]

/-- Bytes that are not ASCII read as themselves. -/
theorem decodeBody_raw (enc : GoString) (hall : ∀ x ∈ enc, 0x80 ≤ x.val) :
    ∀ (rest : GoString) (fuel : Nat),
      decodeBody (fuel + enc.length) (enc ++ rest) = (decodeBody fuel rest).map (enc ++ ·) := by
  induction enc with
  | nil =>
    intro rest fuel
    have : ∀ o : Option GoString, o = o.map (([] : GoString) ++ ·) := by
      intro o; cases o <;> rfl
    exact this _
  | cons c cs ih =>
    intro rest fuel
    have hc := hall c (by simp)
    have hq : c ≠ 0x22 := by
      intro e; rw [e] at hc; exact absurd hc (by decide)
    have hb : c ≠ 0x5C := by
      intro e; rw [e] at hc; exact absurd hc (by decide)
    have hlen : fuel + (c :: cs).length = (fuel + cs.length) + 1 := by
      simp only [List.length_cons]; omega
    rw [hlen, List.cons_append, decodeBody_plain c _ _ hq hb (by omega),
      ih (fun x hx => hall x (by simp [hx])), Option.map_map]
    rfl

/-- A two-byte escape reads as the byte it names. -/
theorem decodeBody_simple (e d : Byte) (rest : GoString) (fuel : Nat)
    (he : simpleEscape e = some d) (hu : e ≠ 0x75) :
    decodeBody (fuel + 1) (0x5C :: e :: rest) = (decodeBody fuel rest).map ([d] ++ ·) := by
  have h1 : (0x5C : Byte) ≠ 0x22 := by decide
  simp only [decodeBody, decodeStep, h1, hu, he, if_false, if_true]

/-- An escape with four hexadecimal digits that is not a surrogate reads as the
encoding of the rune it names. -/
theorem decodeBody_unicode (h1 h2 h3 h4 : Byte) (n : Nat) (rest : GoString) (fuel : Nat)
    (h : hex4 h1 h2 h3 h4 = some n) (hn : n < 0xD800 ∨ 0xDBFF < n) :
    decodeBody (fuel + 1) (0x5C :: 0x75 :: h1 :: h2 :: h3 :: h4 :: rest)
      = (decodeBody fuel rest).map (EncodeRune n ++ ·) := by
  have hq : (0x5C : Byte) ≠ 0x22 := by decide
  have hd8 : ¬ (0xD800 ≤ n ∧ n ≤ 0xDBFF) := by omega
  simp only [decodeBody, decodeStep, decodeUnicode, hq, h, hd8, if_false, if_true]

/-- The reader gets back an ASCII byte from what the encoder writes for it. -/
theorem decodeBody_escapeByte (short : Bool) (b : Byte) (hb : b.val < 0x80)
    (rest : GoString) (fuel : Nat) :
    decodeBody (fuel + 1) (escapeByte short b ++ rest) = (decodeBody fuel rest).map ([b] ++ ·) := by
  unfold escapeByte
  split_ifs with hsafe hq hbs hf hn hr ht
  · simp only [htmlSafe, Bool.and_eq_true, decide_eq_true_eq, bne_iff_ne, ne_eq] at hsafe
    obtain ⟨⟨⟨⟨⟨⟨h20, _⟩, hq⟩, _⟩, _⟩, _⟩, hbs⟩ := hsafe
    exact decodeBody_plain b rest fuel hq hbs (by omega)
  · rcases hq with h | h <;> subst h <;> exact decodeBody_simple _ _ _ _ (by decide) (by decide)
  · obtain ⟨h, -⟩ := hbs; subst h; exact decodeBody_simple _ _ _ _ (by decide) (by decide)
  · obtain ⟨h, -⟩ := hf; subst h; exact decodeBody_simple _ _ _ _ (by decide) (by decide)
  · subst hn; exact decodeBody_simple _ _ _ _ (by decide) (by decide)
  · subst hr; exact decodeBody_simple _ _ _ _ (by decide) (by decide)
  · subst ht; exact decodeBody_simple _ _ _ _ (by decide) (by decide)
  · have h := decodeBody_unicode 0x30 0x30 (hex (b.val / 16)) (hex (b.val % 16)) b.val rest fuel
      (hex4_low b.val hb) (by omega)
    have he : EncodeRune b.val = [b] := by
      unfold EncodeRune
      rw [if_pos (by omega)]
      have : byte b.val = b := Fin.ext (by show b.val % 256 = b.val; omega)
      rw [this]
    rw [he] at h
    exact h

/-- The replacement rune written for an invalid byte reads back as U+FFFD. -/
theorem decodeBody_replacement (rest : GoString) (fuel : Nat) :
    decodeBody (fuel + 1) (str "\\ufffd" ++ rest)
      = (decodeBody fuel rest).map ([0xEF, 0xBF, 0xBD] ++ ·) :=
  decodeBody_unicode 0x66 0x66 0x66 0x64 0xFFFD rest fuel (by decide) (by omega)

/-- The escapes written for the line and paragraph separators read back as
their encodings. -/
theorem decodeBody_separator (r : Nat) (enc rest : GoString) (fuel : Nat)
    (hr : r = 0x2028 ∨ r = 0x2029)
    (hl : r = 0x2028 → enc = [0xE2, 0x80, 0xA8]) (hp : r = 0x2029 → enc = [0xE2, 0x80, 0xA9]) :
    decodeBody (fuel + 1) (str "\\u202" ++ [hex (r % 16)] ++ rest)
      = (decodeBody fuel rest).map (enc ++ ·) := by
  rcases hr with h | h
  · rw [hl h, h]
    exact decodeBody_unicode 0x32 0x30 0x32 0x38 0x2028 rest fuel (by decide) (by omega)
  · rw [hp h, h]
    exact decodeBody_unicode 0x32 0x30 0x32 0x39 0x2029 rest fuel (by decide) (by omega)

theorem escapeByte_length (short : Bool) (b : Byte) : 1 ≤ (escapeByte short b).length := by
  unfold escapeByte
  split_ifs <;> simp [str, EncodeRune]

/-- One round of the encoder and of `replaceInvalid` on an ASCII byte. -/
theorem encode_step_ascii (short : Bool) (fuel : Nat) (b : Byte) (rest : GoString)
    (hb : b.val < 0x80) :
    encodeLoop short (fuel + 1) (b :: rest) = escapeByte short b ++ encodeLoop short fuel rest ∧
    replaceInvalid (fuel + 1) (b :: rest) = [b] ++ replaceInvalid fuel rest := by
  have ht : (b :: rest).take 4 = b :: rest.take 3 := rfl
  have hd : DecodeRuneInString ((b :: rest).take 4) = (b.val, 1) := by
    rw [ht]; exact decode_ascii b _ hb
  constructor
  · simp only [encodeLoop, hb, if_true]
  · have hne : ¬ (b.val = RuneError) := by
      unfold RuneError; omega
    simp only [replaceInvalid, hd, hne, false_and, if_false]
    rfl

/-- One round of the encoder and of `replaceInvalid` on an invalid byte. -/
theorem encode_step_invalid (short : Bool) (fuel : Nat) (b : Byte) (rest : GoString)
    (hb : 0x80 ≤ b.val) (hd : DecodeRuneInString ((b :: rest).take 4) = (RuneError, 1)) :
    encodeLoop short (fuel + 1) (b :: rest) = str "\\ufffd" ++ encodeLoop short fuel rest ∧
    replaceInvalid (fuel + 1) (b :: rest) = [0xEF, 0xBF, 0xBD] ++ replaceInvalid fuel rest := by
  have hb' : ¬ b.val < 0x80 := by omega
  constructor
  · simp only [encodeLoop, hb', hd, if_false, and_self, if_true]
  · simp only [replaceInvalid, hd, and_self, if_true]

/-- One round of the encoder and of `replaceInvalid` on a valid encoding of
two bytes or more. -/
theorem encode_step_valid (short : Bool) (fuel : Nat) (b : Byte) (rest enc tail : GoString)
    (r : Nat) (hb : 0x80 ≤ b.val) (he : b :: rest = enc ++ tail) (h2 : 2 ≤ enc.length)
    (hd : DecodeRuneInString ((b :: rest).take 4) = (r, enc.length)) :
    encodeLoop short (fuel + 1) (b :: rest) =
      (if r = 0x2028 ∨ r = 0x2029 then str "\\u202" ++ [hex (r % 16)] else enc) ++
        encodeLoop short fuel tail ∧
    replaceInvalid (fuel + 1) (b :: rest) = enc ++ replaceInvalid fuel tail := by
  have hb' : ¬ b.val < 0x80 := by omega
  have hne : ¬ (r = RuneError ∧ enc.length = 1) := by omega
  have htake : (b :: rest).take enc.length = enc := by rw [he]; simp
  have hdrop : (b :: rest).drop enc.length = tail := by rw [he]; simp
  constructor
  · simp only [encodeLoop, hb', hd, hne, if_false, htake, hdrop]
    split_ifs <;> simp
  · simp only [replaceInvalid, hd, hne, if_false, htake, hdrop]

/-- The reader gets back from the text the encoder writes the string with its
invalid bytes replaced. -/
theorem decodeBody_encodeLoop (short : Bool) :
    ∀ (f : Nat) (v : GoString) (fuel : Nat), (encodeLoop short f v).length < fuel →
      decodeBody fuel (encodeLoop short f v ++ [0x22]) = some (replaceInvalid f v) := by
  intro f
  induction f with
  | zero =>
    intro v fuel h
    obtain ⟨k, rfl⟩ : ∃ k, fuel = k + 1 := ⟨fuel - 1, by omega⟩
    simp [encodeLoop, replaceInvalid, decodeBody]
  | succ f ih =>
    intro v fuel h
    cases v with
    | nil =>
      obtain ⟨k, rfl⟩ : ∃ k, fuel = k + 1 := ⟨fuel - 1, by omega⟩
      simp [encodeLoop, replaceInvalid, decodeBody]
    | cons b rest =>
      by_cases hb : b.val < 0x80
      · obtain ⟨h1, h2⟩ := encode_step_ascii short f b rest hb
        rw [h1] at h ⊢
        rw [h2]
        have hl := escapeByte_length short b
        rw [List.length_append] at h
        obtain ⟨k, rfl⟩ : ∃ k, fuel = k + 1 := ⟨fuel - 1, by omega⟩
        rw [List.append_assoc, decodeBody_escapeByte short b hb, ih rest k (by omega)]
        rfl
      · have hb' : 0x80 ≤ b.val := by omega
        rcases decode_take4_shape b rest hb' with hd | ⟨enc, tail, r, he, h2, h4, hall, hd, hl, hp⟩
        · obtain ⟨h1, h2⟩ := encode_step_invalid short f b rest hb' hd
          rw [h1] at h ⊢
          rw [h2]
          rw [List.length_append] at h
          have hlen : (str "\\ufffd").length = 6 := by decide
          obtain ⟨k, rfl⟩ : ∃ k, fuel = k + 1 := ⟨fuel - 1, by omega⟩
          rw [List.append_assoc, decodeBody_replacement, ih rest k (by omega)]
          rfl
        · obtain ⟨h1, h3⟩ := encode_step_valid short f b rest enc tail r hb' he h2 hd
          rw [h1] at h ⊢
          rw [h3]
          by_cases hr : r = 0x2028 ∨ r = 0x2029
          · rw [if_pos hr] at h ⊢
            simp only [List.length_append, List.length_singleton] at h
            have hlen : (str "\\u202").length = 5 := by decide
            obtain ⟨k, rfl⟩ : ∃ k, fuel = k + 1 := ⟨fuel - 1, by omega⟩
            rw [List.append_assoc, decodeBody_separator r enc _ k hr hl hp,
              ih tail k (by omega)]
            rfl
          · rw [if_neg hr] at h ⊢
            rw [List.length_append] at h
            obtain ⟨k, rfl⟩ : ∃ k, fuel = k + enc.length := ⟨fuel - enc.length, by omega⟩
            rw [List.append_assoc, decodeBody_raw enc hall, ih tail k (by omega)]
            rfl

/-- The reader gets back, from the literal `encoding/json` writes for a
string, that string with every invalid byte replaced by U+FFFD. -/
theorem decodeString_encodeString (short : Bool) (s : GoString) :
    decodeString (encodeString short s) = some (toValid s) := by
  unfold decodeString encodeString toValid
  simp only [List.singleton_append, if_true]
  exact decodeBody_encodeLoop short s.length s _ (by simp)

/-- A string that is valid UTF-8 is left as it is. -/
theorem replaceInvalid_of_valid :
    ∀ (f : Nat) (v : GoString), v.length ≤ f → validFrom f v = true → replaceInvalid f v = v := by
  intro f
  induction f with
  | zero =>
    intro v h _
    have : v = [] := List.length_eq_zero.mp (by omega)
    rw [this]; rfl
  | succ f ih =>
    intro v h hv
    cases v with
    | nil => rfl
    | cons b rest =>
      have hw := decode_width b (rest.take 3)
      have ht : (b :: rest).take 4 = b :: rest.take 3 := rfl
      rw [← ht] at hw
      by_cases hd : (DecodeRuneInString ((b :: rest).take 4)).1 = RuneError ∧
          (DecodeRuneInString ((b :: rest).take 4)).2 = 1
      · simp only [validFrom] at hv
        rw [if_pos hd] at hv
        exact absurd hv (by simp)
      · simp only [validFrom] at hv
        rw [if_neg hd] at hv
        simp only [replaceInvalid]
        rw [if_neg hd]
        rw [ih _ (by simp only [List.length_drop, List.length_cons] at h ⊢; omega) hv,
          List.take_append_drop]

/-- The replacement of invalid bytes leaves valid UTF-8 as it is. -/
theorem toValid_of_valid (s : GoString) (h : ValidString s = true) : toValid s = s :=
  replaceInvalid_of_valid s.length s (Nat.le_refl _) h

/-! ### The layout of the marshalled record -/

theorem hex_ne_newline : ∀ k, k < 16 → hex k ≠ 0x0A := by decide

/-- The encoder never writes a raw newline for an ASCII byte. -/
theorem newline_not_mem_escapeByte (short : Bool) (b : Byte) :
    (0x0A : Byte) ∉ escapeByte short b := by
  have hlt := b.isLt
  unfold escapeByte
  split_ifs with hsafe hq hbs hf hn hr ht
  · simp only [htmlSafe, Bool.and_eq_true, decide_eq_true_eq, bne_iff_ne, ne_eq] at hsafe
    obtain ⟨⟨⟨⟨⟨⟨h20, _⟩, _⟩, _⟩, _⟩, _⟩, _⟩ := hsafe
    intro h
    simp only [List.mem_singleton] at h
    rw [← h] at h20
    exact absurd h20 (by decide)
  · rcases hq with h | h <;> subst h <;> decide
  · decide
  · decide
  · decide
  · decide
  · decide
  · have h1 := hex_ne_newline (b.val / 16) (by omega)
    have h2 := hex_ne_newline (b.val % 16) (by omega)
    have hs : str "\\u00" = [0x5C, 0x75, 0x30, 0x30] := by decide
    intro h
    rw [hs] at h
    simp only [List.cons_append, List.nil_append, List.mem_cons, List.mem_singleton,
      List.not_mem_nil, or_false] at h
    rcases h with h | h | h | h | h | h
    · exact absurd h (by decide)
    · exact absurd h (by decide)
    · exact absurd h (by decide)
    · exact absurd h (by decide)
    · exact h1 h.symm
    · exact h2 h.symm

/-- The encoder never writes a raw newline. -/
theorem newline_not_mem_encodeLoop (short : Bool) :
    ∀ (f : Nat) (v : GoString), (0x0A : Byte) ∉ encodeLoop short f v := by
  intro f
  induction f with
  | zero => intro v; simp [encodeLoop]
  | succ f ih =>
    intro v
    cases v with
    | nil => simp [encodeLoop]
    | cons b rest =>
      by_cases hb : b.val < 0x80
      · rw [(encode_step_ascii short f b rest hb).1]
        intro h
        rcases List.mem_append.mp h with h | h
        · exact newline_not_mem_escapeByte short b h
        · exact ih rest h
      · have hb' : 0x80 ≤ b.val := by omega
        rcases decode_take4_shape b rest hb' with hd | ⟨enc, tail, r, he, h2, h4, hall, hd, hl, hp⟩
        · rw [(encode_step_invalid short f b rest hb' hd).1]
          intro h
          rcases List.mem_append.mp h with h | h
          · exact absurd h (by decide)
          · exact ih rest h
        · rw [(encode_step_valid short f b rest enc tail r hb' he h2 hd).1]
          intro h
          rcases List.mem_append.mp h with h | h
          · split_ifs at h with hr
            · have h8 := hex_ne_newline (r % 16) (by omega)
              have hs : str "\\u202" = [0x5C, 0x75, 0x32, 0x30, 0x32] := by decide
              rw [hs] at h
              simp only [List.cons_append, List.nil_append, List.mem_cons, List.mem_singleton,
                List.not_mem_nil, or_false] at h
              rcases h with h | h | h | h | h | h
              · exact absurd h (by decide)
              · exact absurd h (by decide)
              · exact absurd h (by decide)
              · exact absurd h (by decide)
              · exact absurd h (by decide)
              · exact h8 h.symm
            · have := hall _ h
              exact absurd this (by decide)
          · exact ih tail h

theorem newline_not_mem_encodeString (short : Bool) (s : GoString) :
    (0x0A : Byte) ∉ encodeString short s := by
  unfold encodeString
  intro h
  rcases List.mem_append.mp h with h | h
  · rcases List.mem_append.mp h with h | h
    · exact absurd h (by decide)
    · exact newline_not_mem_encodeLoop short _ _ h
  · exact absurd h (by decide)

/-- The bytes of `json.MarshalIndent(m, "", "\t\t")`, written out. -/
theorem MarshalIndent_eq (short : Bool) (m : Metadata) :
    MarshalIndent short m "" "\t\t" =
      str "\x7b\n" ++
      str "\t\t\"branch\": " ++ encodeString short m.Branch ++ str ",\n" ++
      str "\t\t\"buildworkflowid\": " ++ encodeString short m.BuildWorkflowId ++ str ",\n" ++
      str "\t\t\"product\": " ++ encodeString short m.Product ++ str ",\n" ++
      str "\t\t\"repo\": " ++ encodeString short m.Repo ++ str ",\n" ++
      str "\t\t\"org\": " ++ encodeString short m.Org ++ str ",\n" ++
      str "\t\t\"sha\": " ++ encodeString short m.Revision ++ str ",\n" ++
      str "\t\t\"version\": " ++ encodeString short m.Version ++
      str "\n\x7d" := by
  have k1 : str "" ++ str "\t\t" ++ encodeString short (str (jsonKey "Branch" "json:\"branch\""))
      ++ str ": " = str "\t\t\"branch\": " := by
    cases short <;> decide
  have k2 : str "" ++ str "\t\t" ++
      encodeString short (str (jsonKey "BuildWorkflowId" "json:\"buildworkflowid\""))
      ++ str ": " = str "\t\t\"buildworkflowid\": " := by
    cases short <;> decide
  have k3 : str "" ++ str "\t\t" ++
      encodeString short (str (jsonKey "Product" "json:\"product\""))
      ++ str ": " = str "\t\t\"product\": " := by
    cases short <;> decide
  have k4 : str "" ++ str "\t\t" ++ encodeString short (str (jsonKey "Repo" "json:\"repo\"\""))
      ++ str ": " = str "\t\t\"repo\": " := by
    cases short <;> decide
  have k5 : str "" ++ str "\t\t" ++ encodeString short (str (jsonKey "Org" "json:\"org\""))
      ++ str ": " = str "\t\t\"org\": " := by
    cases short <;> decide
  have k6 : str "" ++ str "\t\t" ++ encodeString short (str (jsonKey "Revision" "json:\"sha\""))
      ++ str ": " = str "\t\t\"sha\": " := by
    cases short <;> decide
  have k7 : str "" ++ str "\t\t" ++
      encodeString short (str (jsonKey "Version" "json:\"version\""))
      ++ str ": " = str "\t\t\"version\": " := by
    cases short <;> decide
  have e : str "" = [] := rfl
  have e4 : str "\n" ++ str "\x7d" = str "\n\x7d" := by decide
  unfold MarshalIndent Metadata.fields
  simp only [List.map, k1, k2, k3, k4, k5, k6, k7]
  simp [List.intercalate, e, e4]

/-- The lines of `json.MarshalIndent(m, "", "\t\t")`: a brace, one line per
field in declaration order, a brace. -/
theorem MarshalIndent_lines (short : Bool) (m : Metadata) :
    Split (MarshalIndent short m "" "\t\t") 0x0A =
      [ str "\x7b",
        str "\t\t\"branch\": " ++ encodeString short m.Branch ++ str ",",
        str "\t\t\"buildworkflowid\": " ++ encodeString short m.BuildWorkflowId ++ str ",",
        str "\t\t\"product\": " ++ encodeString short m.Product ++ str ",",
        str "\t\t\"repo\": " ++ encodeString short m.Repo ++ str ",",
        str "\t\t\"org\": " ++ encodeString short m.Org ++ str ",",
        str "\t\t\"sha\": " ++ encodeString short m.Revision ++ str ",",
        str "\t\t\"version\": " ++ encodeString short m.Version,
        str "\x7d" ] := by
  have hdata : MarshalIndent short m "" "\t\t" =
      List.intercalate [0x0A]
        [ str "\x7b",
          str "\t\t\"branch\": " ++ encodeString short m.Branch ++ str ",",
          str "\t\t\"buildworkflowid\": " ++ encodeString short m.BuildWorkflowId ++ str ",",
          str "\t\t\"product\": " ++ encodeString short m.Product ++ str ",",
          str "\t\t\"repo\": " ++ encodeString short m.Repo ++ str ",",
          str "\t\t\"org\": " ++ encodeString short m.Org ++ str ",",
          str "\t\t\"sha\": " ++ encodeString short m.Revision ++ str ",",
          str "\t\t\"version\": " ++ encodeString short m.Version,
          str "\x7d" ] := by
    have e1 : str "\x7b\n" = str "\x7b" ++ [0x0A] := by decide
    have e2 : str ",\n" = str "," ++ [0x0A] := by decide
    have e3 : str "\n\x7d" = [0x0A] ++ str "\x7d" := by decide
    rw [MarshalIndent_eq, e1, e2, e3]
    simp [List.intercalate]
  have hline : ∀ (k v t : GoString), (0x0A : Byte) ∉ k → (0x0A : Byte) ∉ t →
      (0x0A : Byte) ∉ k ++ encodeString short v ++ t := by
    intro k v t hk ht h
    rcases List.mem_append.mp h with h | h
    · rcases List.mem_append.mp h with h | h
      · exact hk h
      · exact newline_not_mem_encodeString short v h
    · exact ht h
  unfold Split
  rw [hdata, splitList_intercalate _ _ (by simp)]
  intro l hl
  simp only [List.mem_cons, List.mem_singleton, List.not_mem_nil, or_false] at hl
  rcases hl with h | h | h | h | h | h | h | h | h
  · subst h; decide
  · subst h; exact hline _ _ _ (by decide) (by decide)
  · subst h; exact hline _ _ _ (by decide) (by decide)
  · subst h; exact hline _ _ _ (by decide) (by decide)
  · subst h; exact hline _ _ _ (by decide) (by decide)
  · subst h; exact hline _ _ _ (by decide) (by decide)
  · subst h; exact hline _ _ _ (by decide) (by decide)
  · subst h
    have := hline (str "\t\t\"version\": ") m.Version [] (by decide) (by decide)
    simpa using this
  · subst h; decide

/-! ### White space: `strings.TrimSpace` and `strings.Fields` -/

/-- Once a string decodes to something else than an invalid byte, what follows
it does not change its first rune. -/
theorem decode_append (p y : GoString) (hp : p ≠ [])
    (hd : DecodeRuneInString p ≠ (RuneError, 1)) :
    DecodeRuneInString (p ++ y) = DecodeRuneInString p := by
  cases p with
  | nil => exact absurd rfl hp
  | cons s0 t =>
    by_cases h : s0.val < 0x80
    · rw [List.cons_append, decode_ascii s0 _ h, decode_ascii s0 _ h]
    · rcases decode_shape s0 t (by omega) with he | ⟨enc, rest, r, he, -, -, -, hall, -, -⟩
      · exact absurd he hd
      · rw [he, List.append_assoc, hall, hall]

/-- A prefix of a string that does not start with a space does not start with
a space. -/
theorem NotSpaceFirst_take (u : GoString) (j : Nat) (h : NotSpaceFirst u) :
    NotSpaceFirst (u.take j) := by
  by_cases hp : u.take j = []
  · exact Or.inl hp
  right
  rcases h with h | h
  · rw [h] at hp; simp at hp
  · by_cases hd : DecodeRuneInString (u.take j) = (RuneError, 1)
    · rw [hd]; decide
    · have := decode_append (u.take j) (u.drop j) hp hd
      rw [List.take_append_drop] at this
      rw [← this]
      exact h

/-- An ASCII byte that is not in table `asciiSpace` is not a space rune. -/
theorem not_IsSpace_of_not_asciiSpace (c : Byte) (h : c.val < 0x80)
    (hs : asciiSpace c = false) : IsSpace c.val = false := by
  have h1 : ((((c ≠ 0x09 ∧ c ≠ 0x0A) ∧ c ≠ 0x0B) ∧ c ≠ 0x0C) ∧ c ≠ 0x0D) ∧ c ≠ 0x20 := by
    simpa [asciiSpace] using hs
  obtain ⟨⟨⟨⟨⟨a1, a2⟩, a3⟩, a4⟩, a5⟩, a6⟩ := h1
  have b1 : c.val ≠ 0x09 := fun e => a1 (Fin.ext e)
  have b2 : c.val ≠ 0x0A := fun e => a2 (Fin.ext e)
  have b3 : c.val ≠ 0x0B := fun e => a3 (Fin.ext e)
  have b4 : c.val ≠ 0x0C := fun e => a4 (Fin.ext e)
  have b5 : c.val ≠ 0x0D := fun e => a5 (Fin.ext e)
  have b6 : c.val ≠ 0x20 := fun e => a6 (Fin.ext e)
  simp only [IsSpace, Bool.or_eq_false_iff, Bool.and_eq_false_iff, decide_eq_false_iff_not]
  refine ⟨⟨⟨⟨⟨⟨⟨⟨⟨⟨⟨⟨⟨⟨?_, ?_⟩, ?_⟩, ?_⟩, ?_⟩, ?_⟩, ?_⟩, ?_⟩, ?_⟩, ?_⟩, ?_⟩, ?_⟩, ?_⟩, ?_⟩, ?_⟩ <;>
    omega

/-- What `strings.TrimLeftFunc` leaves does not start with a space. -/
theorem NotSpaceFirst_trimLeftSpace :
    ∀ (fuel : Nat) (s : GoString), s.length ≤ fuel → NotSpaceFirst (trimLeftSpace fuel s) := by
  intro fuel
  induction fuel with
  | zero =>
    intro s h
    have : s = [] := List.length_eq_zero.mp (by omega)
    rw [this]
    exact Or.inl rfl
  | succ fuel ih =>
    intro s h
    cases s with
    | nil => exact Or.inl rfl
    | cons b rest =>
      have hw := decode_width b rest
      by_cases hsp : IsSpace (DecodeRuneInString (b :: rest)).1 = true
      · simp only [trimLeftSpace, hsp, if_true]
        apply ih
        simp only [List.length_drop, List.length_cons] at h ⊢
        omega
      · simp only [trimLeftSpace, hsp, if_false, Bool.false_eq_true]
        exact Or.inr (by simpa using hsp)

/-- What `strings.TrimRightFunc` leaves is a prefix of the string. -/
theorem trimRightSpace_take (s : GoString) : ∃ j, trimRightSpace s = s.take j := by
  unfold trimRightSpace
  split
  · exact ⟨0, rfl⟩
  · split_ifs
    · exact ⟨_, rfl⟩
    · exact ⟨_, rfl⟩

/-- What the second loop of `strings.TrimSpace` leaves is a prefix of the
string. -/
theorem trimSpaceEnd_take (r : GoString) : ∃ j, trimSpaceEnd r = r.reverse.take j := by
  induction r with
  | nil => exact ⟨0, rfl⟩
  | cons c r ih =>
    unfold trimSpaceEnd
    split_ifs with h1 h2
    · exact trimRightSpace_take _
    · obtain ⟨j, hj⟩ := ih
      refine ⟨min j r.reverse.length, ?_⟩
      rw [hj, List.reverse_cons, List.take_append_of_le_length (by omega)]
      rcases Nat.le_total j r.reverse.length with hle | hle
      · rw [Nat.min_eq_left hle]
      · rw [Nat.min_eq_right hle, List.take_of_length_le hle, List.take_length]
    · exact ⟨(c :: r).reverse.length, by simp⟩

/-- What `strings.TrimSpace` leaves is empty or starts with a rune that is not
a space. -/
theorem NotSpaceFirst_TrimSpace (s : GoString) : NotSpaceFirst (TrimSpace s) := by
  induction s with
  | nil => exact Or.inl rfl
  | cons c rest ih =>
    unfold TrimSpace
    split_ifs with h1 h2
    · obtain ⟨j, hj⟩ := trimRightSpace_take (trimLeftSpace (c :: rest).length (c :: rest))
      rw [hj]
      exact NotSpaceFirst_take _ _ (NotSpaceFirst_trimLeftSpace _ _ (Nat.le_refl _))
    · exact ih
    · obtain ⟨j, hj⟩ := trimSpaceEnd_take (c :: rest).reverse
      rw [hj, List.reverse_reverse]
      apply NotSpaceFirst_take
      right
      rw [decode_ascii c rest (by omega)]
      exact not_IsSpace_of_not_asciiSpace c (by omega) (by simpa using h2)

/-- A field being read is never lost. -/
theorem fieldsFrom_ne_nil :
    ∀ (fuel : Nat) (rest cur : GoString), cur ≠ [] → fieldsFrom fuel rest cur ≠ [] := by
  intro fuel
  induction fuel with
  | zero =>
    intro rest cur h
    simp [fieldsFrom, h]
  | succ fuel ih =>
    intro rest cur h
    cases rest with
    | nil => simp [fieldsFrom, h]
    | cons b r =>
      simp only [fieldsFrom, h, if_false]
      split_ifs
      · simp
      · apply ih
        simp [h]

/-- A non-empty string that does not start with a space has a first field. -/
theorem Fields_of_NotSpaceFirst (v : GoString) (hne : v ≠ []) (h : NotSpaceFirst v) :
    ∃ name args, Fields v = name :: args := by
  rcases h with h | h
  · exact absurd h hne
  cases v with
  | nil => exact absurd rfl hne
  | cons b rest =>
    have hw := decode_width b rest
    have hne' : fieldsFrom rest.length
        ((b :: rest).drop (DecodeRuneInString (b :: rest)).2)
        ([] ++ (b :: rest).take (DecodeRuneInString (b :: rest)).2) ≠ [] := by
      apply fieldsFrom_ne_nil
      intro e
      have hl := congrArg List.length e
      simp only [List.nil_append, List.length_take, List.length_cons, List.length_nil] at hl
      omega
    have hF : Fields (b :: rest) = fieldsFrom rest.length
        ((b :: rest).drop (DecodeRuneInString (b :: rest)).2)
        ([] ++ (b :: rest).take (DecodeRuneInString (b :: rest)).2) := by
      unfold Fields
      simp only [List.length_cons, fieldsFrom, h, if_false, Bool.false_eq_true]
    rw [hF]
    cases hc : fieldsFrom rest.length
        ((b :: rest).drop (DecodeRuneInString (b :: rest)).2)
        ([] ++ (b :: rest).take (DecodeRuneInString (b :: rest)).2) with
    | nil => exact absurd hc hne'
    | cons name args => exact ⟨name, args, rfl⟩

/-- A trimmed string that contains a space has a first field. -/
theorem Fields_TrimSpace (raw : GoString) (h : Contains (TrimSpace raw) " ") :
    ∃ name args, Fields (TrimSpace raw) = name :: args := by
  apply Fields_of_NotSpaceFirst _ _ (NotSpaceFirst_TrimSpace raw)
  intro e
  rw [e] at h
  exact absurd h (by decide)

/-! ### `path.Clean` on a path that is already clean -/

theorem cleanLoop_slash (rooted : Bool) (fuel : Nat) (t out : GoString) (dotdot : Nat) :
    cleanLoop rooted (fuel + 1) (0x2f :: t) out dotdot = cleanLoop rooted fuel t out dotdot := by
  simp [cleanLoop]

/-- One round of `path.Clean` on a plain element: the element is copied, after
a slash when the buffer needs one. -/
theorem cleanLoop_plain (rooted : Bool) (fuel : Nat) (s tail out : GoString) (dotdot : Nat)
    (hs : PlainElement s) (htail : tail = [] ∨ tail.head? = some 0x2f) :
    cleanLoop rooted (fuel + 1) (s ++ tail) out dotdot =
      cleanLoop rooted fuel tail
        ((if (rooted = true ∧ out.length ≠ 1) ∨ (rooted = false ∧ out.length ≠ 0)
          then out ++ [0x2f] else out) ++ s) dotdot := by
  obtain ⟨hne, hslash, hdot, hdotdot⟩ := hs
  cases s with
  | nil => exact absurd rfl hne
  | cons c s' =>
    have hc : c ≠ 0x2f := fun e => hslash (by simp [e])
    have hs' : (0x2f : Byte) ∉ s' := fun e => hslash (by simp [e])
    have hall : ∀ a ∈ c :: s', (fun x : Byte => decide (x ≠ 0x2f)) a = true := by
      intro a ha
      have : a ≠ 0x2f := fun e => hslash (e ▸ ha)
      simpa using this
    have htailTake : tail.takeWhile (fun x : Byte => decide (x ≠ 0x2f)) = [] := by
      rcases htail with h | h
      · simp [h]
      · cases tail with
        | nil => simp
        | cons d t =>
          simp only [List.head?_cons, Option.some.injEq] at h
          simp [h]
    have htailDrop : tail.dropWhile (fun x : Byte => decide (x ≠ 0x2f)) = tail := by
      rcases htail with h | h
      · simp [h]
      · cases tail with
        | nil => simp
        | cons d t =>
          simp only [List.head?_cons, Option.some.injEq] at h
          simp [h]
    have htake : (c :: s' ++ tail).takeWhile (fun x : Byte => decide (x ≠ 0x2f)) = c :: s' := by
      rw [List.takeWhile_append_of_pos hall, htailTake, List.append_nil]
    have hdrop : (c :: s' ++ tail).dropWhile (fun x : Byte => decide (x ≠ 0x2f)) = tail := by
      rw [List.dropWhile_append_of_pos hall, htailDrop]
    -- the element is neither `.` nor `..`
    have h1 : ¬ (c = 0x2e ∧ (s' ++ tail = [] ∨ (s' ++ tail).head? = some 0x2f)) := by
      rintro ⟨e, h⟩
      subst e
      cases s' with
      | nil => exact hdot rfl
      | cons d s'' =>
        rcases h with h | h
        · simp at h
        · simp only [List.cons_append, List.head?_cons, Option.some.injEq] at h
          exact hs' (by simp [h])
    have h2 : ¬ (c = 0x2e ∧ (s' ++ tail).head? = some 0x2e ∧
        ((s' ++ tail).tail = [] ∨ (s' ++ tail).tail.head? = some 0x2f)) := by
      rintro ⟨e, h, h'⟩
      subst e
      cases s' with
      | nil =>
        rcases htail with ht | ht
        · simp [ht] at h
        · simp only [List.nil_append] at h
          rw [ht] at h
          exact absurd h (by decide)
      | cons d s'' =>
        simp only [List.cons_append, List.head?_cons, Option.some.injEq] at h
        subst h
        cases s'' with
        | nil => exact hdotdot rfl
        | cons e s3 =>
          rcases h' with h' | h'
          · simp at h'
          · simp only [List.cons_append, List.tail_cons, List.head?_cons,
              Option.some.injEq] at h'
            exact hs' (by simp [h'])
    have hstep : cleanLoop rooted (fuel + 1) (c :: (s' ++ tail)) out dotdot =
        cleanLoop rooted fuel ((c :: (s' ++ tail)).dropWhile (fun x : Byte => decide (x ≠ 0x2f)))
          ((if (rooted = true ∧ out.length ≠ 1) ∨ (rooted = false ∧ out.length ≠ 0)
            then out ++ [0x2f] else out) ++
            (c :: (s' ++ tail)).takeWhile (fun x : Byte => decide (x ≠ 0x2f))) dotdot := by
      rw [cleanLoop]
      simp only [hc, if_false, h1, h2]
    rw [List.cons_append, hstep, ← List.cons_append, htake, hdrop]

/-- The loop of `path.Clean` copies a list of plain elements, joined by
slashes. -/
theorem cleanLoop_plain_elements (rooted : Bool) (elems : List GoString) :
    elems ≠ [] → (∀ s ∈ elems, PlainElement s) →
    ∀ (fuel : Nat) (out : GoString) (dotdot : Nat),
      (List.intercalate [0x2f] elems).length ≤ fuel →
      cleanLoop rooted fuel (List.intercalate [0x2f] elems) out dotdot =
        (if (rooted = true ∧ out.length ≠ 1) ∨ (rooted = false ∧ out.length ≠ 0)
          then out ++ [0x2f] else out) ++ List.intercalate [0x2f] elems := by
  induction elems with
  | nil => intro h; exact absurd rfl h
  | cons s rest ih =>
    intro _ hall fuel out dotdot hfuel
    have hs : PlainElement s := hall s (by simp)
    have hslen : 1 ≤ s.length := by
      obtain ⟨hne, -⟩ := hs
      cases s with
      | nil => exact absurd rfl hne
      | cons c t => simp
    cases rest with
    | nil =>
      have hi : List.intercalate [(0x2f : Byte)] [s] = s := by simp [List.intercalate]
      rw [hi] at hfuel ⊢
      obtain ⟨f, rfl⟩ : ∃ f, fuel = f + 1 := ⟨fuel - 1, by omega⟩
      have := cleanLoop_plain rooted f s [] out dotdot hs (Or.inl rfl)
      rw [List.append_nil] at this
      rw [this]
      cases f <;> simp [cleanLoop]
    | cons t rest' =>
      have hi : List.intercalate [(0x2f : Byte)] (s :: t :: rest') =
          s ++ 0x2f :: List.intercalate [0x2f] (t :: rest') := by
        simp [List.intercalate]
      rw [hi] at hfuel ⊢
      simp only [List.length_append, List.length_cons] at hfuel
      obtain ⟨f, rfl⟩ : ∃ f, fuel = f + 2 := ⟨fuel - 2, by omega⟩
      rw [cleanLoop_plain rooted (f + 1) s (0x2f :: List.intercalate [0x2f] (t :: rest')) out
        dotdot hs (Or.inr rfl), cleanLoop_slash]
      rw [ih (by simp) (fun x hx => hall x (by simp [hx])) f _ dotdot (by omega)]
      have hlen : ∀ o : GoString, (o ++ s).length ≠ 0 := by
        intro o
        rw [List.length_append]
        omega
      have hlen2 : rooted = true →
          ((if (rooted = true ∧ out.length ≠ 1) ∨ (rooted = false ∧ out.length ≠ 0)
            then out ++ [0x2f] else out) ++ s).length ≠ 1 := by
        intro hr
        subst hr
        by_cases h1 : out.length = 1
        · rw [if_neg (by simp [h1]), List.length_append]
          omega
        · rw [if_pos (Or.inl ⟨rfl, h1⟩)]
          simp only [List.length_append, List.length_singleton]
          omega
      have hcond : (rooted = true ∧
            ((if (rooted = true ∧ out.length ≠ 1) ∨ (rooted = false ∧ out.length ≠ 0)
              then out ++ [0x2f] else out) ++ s).length ≠ 1) ∨
          (rooted = false ∧
            ((if (rooted = true ∧ out.length ≠ 1) ∨ (rooted = false ∧ out.length ≠ 0)
              then out ++ [0x2f] else out) ++ s).length ≠ 0) := by
        cases hr : rooted with
        | false => exact Or.inr ⟨rfl, hlen _⟩
        | true => exact Or.inl ⟨rfl, hr ▸ hlen2 hr⟩
      rw [if_pos hcond]
      simp

/-- The function `path.Clean` leaves a path made of plain elements as it is. -/
theorem Clean_plainPath (rooted : Bool) (elems : List GoString)
    (hne : elems ≠ []) (hall : ∀ s ∈ elems, PlainElement s) :
    Clean (plainPath rooted elems) = plainPath rooted elems := by
  have hfirst : ∃ c t, List.intercalate [(0x2f : Byte)] elems = c :: t ∧ c ≠ 0x2f := by
    cases elems with
    | nil => exact absurd rfl hne
    | cons s rest =>
      obtain ⟨hs, hslash, -, -⟩ := hall s (by simp)
      cases s with
      | nil => exact absurd rfl hs
      | cons c s' =>
        have hc : c ≠ 0x2f := fun e => hslash (by simp [e])
        cases rest with
        | nil => exact ⟨c, s', by simp [List.intercalate], hc⟩
        | cons t r =>
          exact ⟨c, s' ++ 0x2f :: List.intercalate [0x2f] (t :: r),
            by simp [List.intercalate], hc⟩
  obtain ⟨c, t, hct, hc⟩ := hfirst
  cases rooted with
  | true =>
    have hp : plainPath true elems = 0x2f :: List.intercalate [0x2f] elems := by
      simp [plainPath]
    rw [hp]
    unfold Clean
    simp only [decide_True, if_true]
    rw [cleanLoop_plain_elements true elems hne hall _ _ _ (by simp; omega)]
    simp
  | false =>
    have hp : plainPath false elems = List.intercalate [0x2f] elems := by
      simp [plainPath]
    rw [hp]
    have hloop := cleanLoop_plain_elements false elems hne hall
      ((List.intercalate [(0x2f : Byte)] elems).length + 1) [] 0 (by omega)
    rw [hct] at hloop ⊢
    unfold Clean
    simp only [hc, decide_False, if_false, Bool.false_eq_true]
    rw [hloop]
    simp

/-- The function `path.Join` on a non-empty directory and a file name. -/
theorem Join_pair (d n : GoString) (hd : d ≠ "") : Join [d, n] = Clean (d ++ str "/" ++ n) := by
  have hd' : d ≠ [] := hd
  unfold Join
  have h : List.dropWhile (fun x : GoString => decide (x = [])) [d, n] = [d, n] := by
    simp [List.dropWhile, hd']
  rw [h]
  simp only
  congr 1
  have : str "/" = [0x2f] := rfl
  simp [List.intercalate, this]

/-- The function `path.Join` on an empty directory and a non-empty file name. -/
theorem Join_empty_dir (n : GoString) (hn : n ≠ "") : Join ["", n] = Clean n := by
  have hn' : n ≠ [] := hn
  unfold Join
  have h : List.dropWhile (fun x : GoString => decide (x = [])) [str "", n] = [n] := by
    have : str "" = [] := rfl
    simp [List.dropWhile, hn', this]
  rw [h]
  simp only
  congr 1
  simp [List.intercalate]

/-- Commands run by `createMetadataJson` are those of the version step. -/
theorem createMetadataJson_exec (w : World) (i : input) (n : GoString) (a : List GoString)
    (h : Effect.exec n a ∈ (createMetadataJson w i).effects) :
    Effect.exec n a ∈ (versionStep w i).effects := by
  rw [createMetadataJson_eq] at h
  by_cases hp : i.product = ""
  · simp [hp] at h
  simp only [hp, if_false] at h
  cases hr : (if i.repo = "" then (Split (w.Getenv "GITHUB_REPOSITORY") 0x2f)[1]?
      else some i.repo) with
  | none => simp [hr] at h
  | some repository =>
    simp only [hr] at h
    by_cases hid : w.Getenv "GITHUB_RUN_ID" = ""
    · simp [hid] at h
    simp only [hid, if_false] at h
    by_cases hv : i.version = ""
    · simp [hv] at h
    simp only [hv, if_false] at h
    cases hres : (versionStep w i).result with
    | failed e => simpa [hres] using h
    | panicked e => simpa [hres] using h
    | ok version =>
      simp only [hres] at h
      split at h <;> simpa using h

/-- A panic of `createMetadataJson` is the one of the repository index or one
of the version step. -/
theorem createMetadataJson_panic (w : World) (i : input) (reason : String)
    (h : (createMetadataJson w i).result = .panicked reason) :
    reason = "runtime error: index out of range [1] with length 1" ∨
      (versionStep w i).result = .panicked reason := by
  rw [createMetadataJson_eq] at h
  by_cases hp : i.product = ""
  · simp [hp] at h
  simp only [hp, if_false] at h
  cases hr : (if i.repo = "" then (Split (w.Getenv "GITHUB_REPOSITORY") 0x2f)[1]?
      else some i.repo) with
  | none =>
    simp only [hr, Outcome.panicked.injEq] at h
    exact Or.inl h.symm
  | some repository =>
    simp only [hr] at h
    by_cases hid : w.Getenv "GITHUB_RUN_ID" = ""
    · simp [hid] at h
    simp only [hid, if_false] at h
    by_cases hv : i.version = ""
    · simp [hv] at h
    simp only [hv, if_false] at h
    cases hres : (versionStep w i).result with
    | failed e => simp [hres] at h
    | panicked e =>
      simp only [hres, Outcome.panicked.injEq] at h
      rw [h]
      exact Or.inr rfl
    | ok version =>
      simp only [hres] at h
      split at h <;> simp at h

/-- Commands run by `run` are those of `createMetadataJson`. -/
theorem run_exec (w : World) (n : GoString) (a : List GoString)
    (h : Effect.exec n a ∈ (run w).effects) :
    Effect.exec n a ∈ (createMetadataJson w (inputOf w)).effects := by
  rw [run_eq] at h
  cases hres : (createMetadataJson w (inputOf w)).result with
  | failed e => simpa [hres] using h
  | panicked e => simpa [hres] using h
  | ok p =>
    simp only [hres] at h
    cases hc : checkFileIsExist w p with
    | some err => simpa [hc] using h
    | none => simpa [hc] using h

/-- A panic of `run` is one of `createMetadataJson`. -/
theorem run_panic (w : World) (reason : String) (h : (run w).result = .panicked reason) :
    (createMetadataJson w (inputOf w)).result = .panicked reason := by
  rw [run_eq] at h
  cases hres : (createMetadataJson w (inputOf w)).result with
  | failed e => simp [hres] at h
  | panicked e => simpa [hres] using h
  | ok p =>
    simp only [hres] at h
    cases hc : checkFileIsExist w p with
    | some err => simp [hc] at h
    | none => simp [hc] at h

/-- The version that `run` passes on is the trimmed value of the environment
variable `INPUT_VERSION`. -/
theorem inputOf_version (w : World) :
    (inputOf w).version = TrimSpace (w.Getenv "INPUT_VERSION") := by
  have e : str "INPUT_" ++ ToUpperASCII (spacesToUnderscores (str "version")) =
      str "INPUT_VERSION" := by decide
  show TrimSpace (w.Getenv (str "INPUT_" ++ ToUpperASCII (spacesToUnderscores (str "version")))) = _
  rw [e]

/-! ## The claims -/

/-- C1, as stated, fails: with product `vault`, literal version `1.2.3`, a run id
and a file system that accepts every write, but no repo input and no
`GITHUB_REPOSITORY`, `createMetadataJson` panics on the index `[1]` and returns no
path. -/
theorem literal_version_panics_without_repository :
    ({ fullInput with repo := "" } : input).product ≠ "" ∧
    ({ fullInput with repo := "" } : input).version ≠ "" ∧
    ¬ Contains ({ fullInput with repo := "" } : input).version " " ∧
    (sampleWorld [("GITHUB_RUN_ID", "7")] (exitZero "") (.info false)).Getenv "GITHUB_RUN_ID"
      ≠ "" ∧
    (∀ path data perm,
      (sampleWorld [("GITHUB_RUN_ID", "7")] (exitZero "") (.info false)).WriteFile
        path data perm = none) ∧
    createMetadataJson (sampleWorld [("GITHUB_RUN_ID", "7")] (exitZero "") (.info false))
        { fullInput with repo := "" } =
      ⟨.panicked "runtime error: index out of range [1] with length 1", []⟩ := by
  refine ⟨by decide, by decide, by decide, by decide, fun _ _ _ => rfl, by decide⟩

/-- C1 (amended): for every input whose product is non-empty, whose version is
non-empty and without a space, and whose repo is non-empty unless
`GITHUB_REPOSITORY` contains a slash, in every environment with a non-empty
`GITHUB_RUN_ID` and a file system that accepts the write, `createMetadataJson`
returns the file path and no error, its only effect is the write of a
marshalled record to that path, and that record has the product input as its
product and the version input as its version. -/
theorem literal_version_succeeds (w : World) (i : input)
    (hp : i.product ≠ "") (hv : i.version ≠ "") (hsp : ¬ Contains i.version " ")
    (hid : w.Getenv "GITHUB_RUN_ID" ≠ "")
    (hrepo : i.repo ≠ "" ∨ Contains (w.Getenv "GITHUB_REPOSITORY") "/")
    (hfs : ∀ data, w.WriteFile (outputPath i) data 0o644 = none) :
    ∃ m : Metadata,
      createMetadataJson w i =
        ⟨.ok (outputPath i),
          [.writeFile (outputPath i) (MarshalIndent w.jsonShortEscapes m "" "\t\t") 0o644]⟩ ∧
      m.Product = i.product ∧ m.Version = i.version := by
  have hver : versionStep w i = ⟨.ok i.version, []⟩ := by
    unfold versionStep; simp [hsp]
  obtain ⟨repository, hr⟩ := repository_resolves w i hrepo
  refine ⟨recordOf w i repository i.version, ?_, rfl, rfl⟩
  have := createMetadataJson_succeeds hp hid hv hr hver hfs
  simpa using this

/-- Witness of C1 (amended): the push build with a supplied repo and the literal
version `1.2.3`. -/
theorem literal_version_succeeds_witness :
    ∃ m : Metadata,
      createMetadataJson pushWorld fullInput =
        ⟨.ok (outputPath fullInput),
          [.writeFile (outputPath fullInput)
            (MarshalIndent pushWorld.jsonShortEscapes m "" "\t\t") 0o644]⟩ ∧
      m.Product = fullInput.product ∧ m.Version = fullInput.version :=
  literal_version_succeeds pushWorld fullInput (by decide) (by decide) (by decide)
    (by decide) (Or.inl (by decide)) (fun _ => rfl)

/-- C2, the code at the failing input: with the branch input `main` and an empty
`GITHUB_HEAD_REF`, the record written has an empty branch (the value of
`GITHUB_HEAD_REF`), not `main`. -/
theorem supplied_branch_is_discarded :
    fullInput.branch = "main" ∧ pushWorld.Getenv "GITHUB_HEAD_REF" = "" ∧
    createMetadataJson pushWorld fullInput =
      ⟨.ok "/tmp/out/metadata.json",
        [.writeFile "/tmp/out/metadata.json"
          (str ("\x7b\n\t\t\"branch\": \"\",\n\t\t\"buildworkflowid\": \"7\",\n" ++
           "\t\t\"product\": \"vault\",\n\t\t\"repo\": \"vault\",\n" ++
           "\t\t\"org\": \"hashicorp\",\n\t\t\"sha\": \"abc\",\n" ++
           "\t\t\"version\": \"1.2.3\"\n\x7d")) 0o644]⟩ := by
  decide

/-- C3, as stated, fails: with an empty version and an empty `GITHUB_RUN_ID` the
error is the one of the run id, not the one of the version. -/
theorem empty_version_reports_run_id :
    ({ fullInput with version := "" } : input).version = "" ∧
    createMetadataJson (sampleWorld [] (exitZero "") (.info false))
        { fullInput with version := "" } =
      ⟨.failed (.msg "GITHUB_RUN_ID is empty"), []⟩ ∧
    GoError.msg "GITHUB_RUN_ID is empty" ≠
      GoError.msg "The version or version command is not provided" := by
  decide

/-- C3 (amended): for every input whose version is the empty string,
`createMetadataJson` returns no path and has no effect at all (the write is
never reached, no command is run); and when the checks that come first pass
(product non-empty, repo non-empty or `GITHUB_REPOSITORY` with a slash,
`GITHUB_RUN_ID` non-empty) it fails with the error "The version or version
command is not provided". -/
theorem empty_version_fails (w : World) (i : input) (hv : i.version = "") :
    (∀ p, (createMetadataJson w i).result ≠ .ok p) ∧
    (createMetadataJson w i).effects = [] ∧
    (i.product ≠ "" → (i.repo ≠ "" ∨ Contains (w.Getenv "GITHUB_REPOSITORY") "/") →
      w.Getenv "GITHUB_RUN_ID" ≠ "" →
      (createMetadataJson w i).result =
        .failed (.msg "The version or version command is not provided")) := by
  refine ⟨(createMetadataJson_version_empty w i hv).1,
    (createMetadataJson_version_empty w i hv).2, ?_⟩
  intro hp hrepo hid
  obtain ⟨r, hr⟩ := repository_resolves w i hrepo
  rw [createMetadataJson_eq]
  simp only [hp, hr, hid, hv, if_false, if_true]

/-- Witness of C3 (amended): the push build with the version input left
empty. -/
theorem empty_version_fails_witness :
    (∀ p, (createMetadataJson pushWorld { fullInput with version := "" }).result ≠ .ok p) ∧
    (createMetadataJson pushWorld { fullInput with version := "" }).effects = [] ∧
    (createMetadataJson pushWorld { fullInput with version := "" }).result =
      .failed (.msg "The version or version command is not provided") :=
  have h := empty_version_fails pushWorld { fullInput with version := "" } rfl
  ⟨h.1, h.2.1, h.2.2 (by decide) (Or.inl (by decide)) (by decide)⟩

/-- C4, as stated, fails: with no repo input and `GITHUB_REPOSITORY` set to
`a/b/c`, which is not in org/repo form, `createMetadataJson` does not fail: it
writes the file with the repo `b`. -/
theorem malformed_repository_is_accepted :
    ({ fullInput with repo := "" } : input).repo = "" ∧
    Split "a/b/c" 0x2f = [str "a", str "b", str "c"] ∧
    createMetadataJson (pushWorld.setenv "GITHUB_REPOSITORY" "a/b/c")
        { fullInput with repo := "" } =
      ⟨.ok "/tmp/out/metadata.json",
        [.writeFile "/tmp/out/metadata.json"
          (str ("\x7b\n\t\t\"branch\": \"\",\n\t\t\"buildworkflowid\": \"7\",\n" ++
           "\t\t\"product\": \"vault\",\n\t\t\"repo\": \"b\",\n" ++
           "\t\t\"org\": \"hashicorp\",\n\t\t\"sha\": \"abc\",\n" ++
           "\t\t\"version\": \"1.2.3\"\n\x7d")) 0o644]⟩ := by
  decide

/-- C4 (amended): when the repo input is empty and `GITHUB_REPOSITORY` contains
a slash, the resolved repo is its second slash-separated piece (the text between
the first slash and the second, or the end), whatever the number of pieces; when
the repo input is empty and `GITHUB_REPOSITORY` has no slash (it is empty, for
one), `createMetadataJson` returns no path and has no effect, so no file is
written; when the repo input is non-empty it is the resolved repo, and the
value of `GITHUB_REPOSITORY` has no influence on the call. -/
theorem repo_resolution (w : World) (i : input) :
    (i.repo = "" → ∀ org repo rest,
      w.Getenv "GITHUB_REPOSITORY" = org ++ 0x2f :: repo ++ rest →
      (0x2f : Byte) ∉ org → (0x2f : Byte) ∉ repo → (rest = [] ∨ rest.head? = some 0x2f) →
      ∀ p, (createMetadataJson w i).result = .ok p →
        ∃ m : Metadata,
          (createMetadataJson w i).effects =
            (versionStep w i).effects ++
              [.writeFile p (MarshalIndent w.jsonShortEscapes m "" "\t\t") 0o644] ∧
          m.Repo = repo) ∧
    (i.repo = "" → ¬ Contains (w.Getenv "GITHUB_REPOSITORY") "/" →
      (∀ p, (createMetadataJson w i).result ≠ .ok p) ∧
      (createMetadataJson w i).effects = []) ∧
    (i.repo ≠ "" →
      (∀ p, (createMetadataJson w i).result = .ok p →
        ∃ m : Metadata,
          (createMetadataJson w i).effects =
            (versionStep w i).effects ++
              [.writeFile p (MarshalIndent w.jsonShortEscapes m "" "\t\t") 0o644] ∧
          m.Repo = i.repo) ∧
      ∀ value, createMetadataJson (w.setenv "GITHUB_REPOSITORY" value) i
        = createMetadataJson w i) := by
  refine ⟨?_, createMetadataJson_no_repository w i, ?_⟩
  · intro hrepo org repo rest hs ho hr hrest p hok
    obtain ⟨repository, version, -, -, -, hrep, -, -, heff⟩ := createMetadataJson_ok hok
    rw [if_pos hrepo, split_second _ org repo rest hs ho hr hrest] at hrep
    simp only [Option.some.injEq] at hrep
    exact ⟨recordOf w i repository version, heff, hrep.symm⟩
  · intro hrepo
    constructor
    · intro p hok
      obtain ⟨repository, version, -, -, -, hrep, -, -, heff⟩ := createMetadataJson_ok hok
      rw [if_neg hrepo] at hrep
      simp only [Option.some.injEq] at hrep
      exact ⟨recordOf w i repository version, heff, hrep.symm⟩
    · intro value
      have hne : ∀ k : GoString, k ≠ "GITHUB_REPOSITORY" →
          (w.setenv "GITHUB_REPOSITORY" value).Getenv k = w.Getenv k := by
        intro k hk
        simp [World.setenv, hk]
      have h1 := hne "GITHUB_HEAD_REF" (by decide)
      have h2 := hne "GITHUB_REF" (by decide)
      have h3 := hne "GITHUB_SHA" (by decide)
      have h4 := hne "GITHUB_RUN_ID" (by decide)
      have h5 : ∀ c, getVersion (w.setenv "GITHUB_REPOSITORY" value) c = getVersion w c :=
        fun _ => rfl
      unfold createMetadataJson
      simp only [h1, h2, h3, h4, h5, hrepo, if_false]
      rfl

/-- Witness of C4 (amended): `hashicorp/vault` resolves to `vault`; an unset
`GITHUB_REPOSITORY` stops the call; a supplied repo is used whatever
`GITHUB_REPOSITORY` is. -/
theorem repo_resolution_witness :
    (∃ m : Metadata,
      (createMetadataJson pushWorld { fullInput with repo := "" }).effects =
        (versionStep pushWorld { fullInput with repo := "" }).effects ++
          [.writeFile "/tmp/out/metadata.json"
            (MarshalIndent pushWorld.jsonShortEscapes m "" "\t\t") 0o644] ∧
      m.Repo = "vault") ∧
    ((∀ p, (createMetadataJson (pushWorld.setenv "GITHUB_REPOSITORY" "")
        { fullInput with repo := "" }).result ≠ .ok p) ∧
      (createMetadataJson (pushWorld.setenv "GITHUB_REPOSITORY" "")
        { fullInput with repo := "" }).effects = []) ∧
    (∀ value, createMetadataJson (pushWorld.setenv "GITHUB_REPOSITORY" value) fullInput
      = createMetadataJson pushWorld fullInput) :=
  ⟨(repo_resolution pushWorld { fullInput with repo := "" }).1 rfl
      (str "hashicorp") (str "vault") [] (by decide) (by decide) (by decide) (Or.inl rfl)
      "/tmp/out/metadata.json" (by decide),
    (repo_resolution (pushWorld.setenv "GITHUB_REPOSITORY" "")
      { fullInput with repo := "" }).2.1 rfl (by decide),
    ((repo_resolution pushWorld fullInput).2.2 (by decide)).2⟩

/-- C5, the code at the failing input: the version command `printf \n` exits
zero and prints one newline; `getVersion` tests for emptiness before it trims,
so `createMetadataJson` succeeds and writes a record whose version is the empty
string. -/
theorem newline_only_output_gives_empty_version :
    (newlineWorld.Run "printf" [str "\\n"]).err = none ∧
    (newlineWorld.Run "printf" [str "\\n"]).stdout = "\n" ∧
    createMetadataJson newlineWorld { fullInput with version := "printf \\n" } =
      ⟨.ok "/tmp/out/metadata.json",
        [.exec "printf" [str "\\n"],
         .writeFile "/tmp/out/metadata.json"
          (str ("\x7b\n\t\t\"branch\": \"\",\n\t\t\"buildworkflowid\": \"7\",\n" ++
           "\t\t\"product\": \"vault\",\n\t\t\"repo\": \"vault\",\n" ++
           "\t\t\"org\": \"hashicorp\",\n\t\t\"sha\": \"abc\",\n" ++
           "\t\t\"version\": \"\"\n\x7d")) 0o644]⟩ := by
  decide

/-- C6, as stated, fails: the command `git describe` exits zero with an empty
standard output; the version is not that output unchanged, `getVersion` returns
an error and `createMetadataJson` fails. -/
theorem empty_output_is_an_error :
    Contains "git describe" " " ∧
    Fields "git describe" = [str "git", str "describe"] ∧
    (silentWorld.Run "git" [str "describe"]).err = none ∧
    (silentWorld.Run "git" [str "describe"]).stdout = "" ∧
    getVersion silentWorld "git describe" =
      ⟨.failed (.msg "Failed to setup version using git describe command"),
        [.exec "git" [str "describe"]]⟩ ∧
    createMetadataJson silentWorld { fullInput with version := "git describe" } =
      ⟨.failed (.reformat (.msg "Failed to setup version using git describe command")),
        [.exec "git" [str "describe"]]⟩ := by
  decide

/-- C6 (amended): for every version input that contains a space and whose
fields are a program name and arguments: if the command exits zero with a
non-empty standard output `s`, `getVersion` runs it once and returns `s` with
exactly one trailing newline removed if `s` ends in a newline and `s` unchanged
otherwise, and that is the version of the record a successful
`createMetadataJson` writes; if the command exits non-zero or cannot be run,
`getVersion` returns an error, and `createMetadataJson` returns no path and
writes no file. -/
theorem version_command_output (w : World) (i : input) (name : GoString) (args : List GoString)
    (hsp : Contains i.version " ") (hf : Fields i.version = name :: args) :
    (∀ s, (w.Run name args).err = none → (w.Run name args).stdout = s → s ≠ "" →
      getVersion w i.version = ⟨.ok (TrimSuffix s "\n"), [.exec name args]⟩ ∧
      (∀ t, s = t ++ str "\n" → TrimSuffix s "\n" = t) ∧
      (¬ str "\n" <:+ s → TrimSuffix s "\n" = s) ∧
      ∀ p, (createMetadataJson w i).result = .ok p →
        ∃ m : Metadata,
          (createMetadataJson w i).effects =
            [.exec name args,
              .writeFile p (MarshalIndent w.jsonShortEscapes m "" "\t\t") 0o644] ∧
          m.Version = TrimSuffix s "\n") ∧
    ((w.Run name args).err ≠ none →
      (∃ err, getVersion w i.version = ⟨.failed err, [.exec name args]⟩) ∧
      (∀ p, (createMetadataJson w i).result ≠ .ok p) ∧
      ∀ path data perm, Effect.writeFile path data perm ∉ (createMetadataJson w i).effects) := by
  have hstep : versionStep w i = getVersion w i.version := by
    unfold versionStep; rw [if_pos hsp]
  constructor
  · intro s herr hout hne
    have hg : getVersion w i.version = ⟨.ok (TrimSuffix s "\n"), [.exec name args]⟩ := by
      rw [getVersion_eq w _ name args hf, herr, hout]
      simp only [hne, if_false]
    refine ⟨hg, ?_, TrimSuffix_of_not_suffix s "\n", ?_⟩
    · intro t ht
      rw [ht]
      exact TrimSuffix_append t (str "\n")
    · intro p hok
      obtain ⟨repository, version, -, -, -, -, hver, -, heff⟩ := createMetadataJson_ok hok
      rw [hstep, hg] at hver heff
      simp only [Outcome.ok.injEq] at hver
      exact ⟨recordOf w i repository version, by simpa using heff, hver.symm⟩
  · intro herr
    obtain ⟨err, herr'⟩ : ∃ err, (w.Run name args).err = some err := by
      cases h : (w.Run name args).err with
      | none => exact absurd h herr
      | some err => exact ⟨err, rfl⟩
    have hg : getVersion w i.version =
        ⟨.failed (.msg (str "Failed to run " ++ name ++ str " command " ++
          (w.Run name args).cmdString ++ str ": " ++ err)), [.exec name args]⟩ := by
      rw [getVersion_eq w _ name args hf, herr']
    refine ⟨⟨_, hg⟩, ?_, ?_⟩
    · intro p hok
      obtain ⟨repository, version, -, -, -, -, hver, -, -⟩ := createMetadataJson_ok hok
      rw [hstep, hg] at hver
      simp at hver
    · intro path data perm hmem
      obtain ⟨_, _, -, hver, -⟩ := createMetadataJson_write hmem
      rw [hstep, hg] at hver
      simp at hver

/-- Witness of C6 (amended): `git describe` printing `1.2.3` and two newlines
resolves to `1.2.3` and one newline; `git describe` exiting with status 1 is an
error of `getVersion` and nothing is written. -/
theorem version_command_output_witness :
    (getVersion twoNewlinesWorld "git describe"
        = ⟨.ok "1.2.3\n", [.exec "git" [str "describe"]]⟩ ∧
      TrimSuffix "1.2.3\n" "\n" = str "1.2.3") ∧
    ((∃ err, getVersion failingWorld "git describe"
        = ⟨.failed err, [.exec "git" [str "describe"]]⟩) ∧
      (∀ p, (createMetadataJson failingWorld
        { fullInput with version := "git describe" }).result ≠ .ok p) ∧
      ∀ path data perm, Effect.writeFile path data perm ∉
        (createMetadataJson failingWorld { fullInput with version := "git describe" }).effects) :=
  have h1 := (version_command_output twoNewlinesWorld { fullInput with version := "git describe" }
    "git" [str "describe"] (by decide) (by decide)).1 "1.2.3\n\n"
      (by decide) (by decide) (by decide)
  have h2 := (version_command_output pushWorld { fullInput with version := "git describe" }
    "git" [str "describe"] (by decide) (by decide)).1 "1.2.3\n"
      (by decide) (by decide) (by decide)
  ⟨⟨h1.1.trans (by decide), h2.2.1 (str "1.2.3") (by decide)⟩,
    (version_command_output failingWorld { fullInput with version := "git describe" }
      "git" [str "describe"] (by decide) (by decide)).2 (by decide)⟩

/-- C9: `checkFileIsExist` returns the nil error exactly when the path can be
statted and is a directory, and an error when it cannot be statted or is not a
directory; so whenever `createMetadataJson` succeeds and the path it wrote is
then not a directory (a regular file in particular), `run` returns an error and
has no `SetOutput` and no `SetEnv` effect: its effects are those of
`createMetadataJson`. -/
theorem post_write_check_rejects_files (w : World) :
    (∀ p, checkFileIsExist w p = none ↔ w.Stat p = .info true) ∧
    (∀ p, w.Stat p ≠ .info true → ∃ err, checkFileIsExist w p = some err) ∧
    (∀ p, (createMetadataJson w (inputOf w)).result = .ok p → w.Stat p ≠ .info true →
      (∃ err, (run w).result = .failed err) ∧
      (run w).effects = (createMetadataJson w (inputOf w)).effects ∧
      ∀ name value,
        Effect.setOutput name value ∉ (run w).effects ∧
        Effect.setEnv name value ∉ (run w).effects) := by
  have hiff : ∀ p, checkFileIsExist w p = none ↔ w.Stat p = .info true := by
    intro p
    unfold checkFileIsExist
    cases w.Stat p with
    | notExist err => simp
    | failed err => simp
    | info isDir => cases isDir <;> simp
  have herr : ∀ p, w.Stat p ≠ .info true → ∃ err, checkFileIsExist w p = some err := by
    intro p hp
    cases hc : checkFileIsExist w p with
    | none => exact absurd ((hiff p).mp hc) hp
    | some err => exact ⟨err, rfl⟩
  refine ⟨hiff, herr, ?_⟩
  intro p hok hstat
  obtain ⟨err, hc⟩ := herr p hstat
  have hrun : run w = ⟨.failed err, (createMetadataJson w (inputOf w)).effects⟩ := by
    rw [run_eq]
    simp only [hok, hc]
  refine ⟨⟨err, by rw [hrun]⟩, by rw [hrun], ?_⟩
  intro name value
  rw [hrun]
  constructor
  · intro hm
    rcases createMetadataJson_effects w (inputOf w) _ hm with ⟨_, _, h⟩ | ⟨_, _, _, h⟩ <;>
      cases h
  · intro hm
    rcases createMetadataJson_effects w (inputOf w) _ hm with ⟨_, _, h⟩ | ⟨_, _, _, h⟩ <;>
      cases h

/-- Witness of C9: the push build writes `/tmp/out/metadata.json`, a regular
file, and `run` fails with "path is not a directory". -/
theorem post_write_check_rejects_files_witness :
    (createMetadataJson actionWorld (inputOf actionWorld)).result
      = .ok "/tmp/out/metadata.json" ∧
    actionWorld.Stat "/tmp/out/metadata.json" = .info false ∧
    (run actionWorld).result
      = .failed (.msg "path is not a directory: /tmp/out/metadata.json") ∧
    ((∃ err, (run actionWorld).result = .failed err) ∧
      (run actionWorld).effects = (createMetadataJson actionWorld (inputOf actionWorld)).effects ∧
      ∀ name value,
        Effect.setOutput name value ∉ (run actionWorld).effects ∧
        Effect.setEnv name value ∉ (run actionWorld).effects) :=
  ⟨by decide, by decide, by decide,
    (post_write_check_rejects_files actionWorld).2.2 "/tmp/out/metadata.json"
      (by decide) (by decide)⟩

/-- C7, as stated, fails: with an empty `filePath` input and the default file
name, the path written and returned is `metadata.json`, relative to the working
directory, and not `"" + "/" + "metadata.json"`, which is `/metadata.json`; and
with the `filePath` input `/tmp/out/` the path is `/tmp/out/metadata.json`, and
not `/tmp/out//metadata.json`. -/
theorem empty_directory_gives_relative_path :
    createMetadataJson pushWorld { fullInput with filePath := "" } =
      ⟨.ok "metadata.json",
        [.writeFile "metadata.json"
          (str ("\x7b\n\t\t\"branch\": \"\",\n\t\t\"buildworkflowid\": \"7\",\n" ++
           "\t\t\"product\": \"vault\",\n\t\t\"repo\": \"vault\",\n" ++
           "\t\t\"org\": \"hashicorp\",\n\t\t\"sha\": \"abc\",\n" ++
           "\t\t\"version\": \"1.2.3\"\n\x7d")) 0o644]⟩ ∧
    ({ fullInput with filePath := "" } : input).filePath ++ str "/" ++ defaultMetadataFileName
      = str "/metadata.json" ∧
    str "metadata.json" ≠ str "/metadata.json" ∧
    (createMetadataJson pushWorld { fullInput with filePath := "/tmp/out/" }).result =
      .ok "/tmp/out/metadata.json" ∧
    ({ fullInput with filePath := "/tmp/out/" } : input).filePath ++ str "/" ++
      defaultMetadataFileName = str "/tmp/out//metadata.json" := by
  decide

/-- C7 (amended): on success `createMetadataJson` writes to and returns
`path.Join(d, n')`, where `d` is the `filePath` input and `n'` is the
`metadataFileName` input when that is non-empty and `metadata.json` otherwise.
That path is `d + "/" + n'` whenever `d` is non-empty and `d + "/" + n'` is
already clean (plain elements joined by single slashes, after an optional
leading slash), as for `/tmp/out` and the default name; and when `d` is empty
it is `path.Clean(n')`, which is `n'` itself whenever `n'` is already clean. -/
theorem output_path (w : World) (i : input) (p : GoString)
    (hok : (createMetadataJson w i).result = .ok p) :
    p = Join [i.filePath,
      if i.metadataFileName = "" then str "metadata.json" else i.metadataFileName] ∧
    (∃ data, (createMetadataJson w i).effects =
      (versionStep w i).effects ++ [.writeFile p data 0o644]) ∧
    (i.filePath ≠ "" → ∀ rooted elems, elems ≠ [] → (∀ s ∈ elems, PlainElement s) →
      i.filePath ++ str "/" ++
        (if i.metadataFileName = "" then str "metadata.json" else i.metadataFileName)
        = plainPath rooted elems →
      p = i.filePath ++ str "/" ++
        (if i.metadataFileName = "" then str "metadata.json" else i.metadataFileName)) ∧
    (i.filePath = "" →
      p = Clean (if i.metadataFileName = "" then str "metadata.json" else i.metadataFileName) ∧
      ∀ rooted elems, elems ≠ [] → (∀ s ∈ elems, PlainElement s) →
        (if i.metadataFileName = "" then str "metadata.json" else i.metadataFileName)
          = plainPath rooted elems →
        p = (if i.metadataFileName = "" then str "metadata.json" else i.metadataFileName)) := by
  obtain ⟨repository, version, -, -, -, -, -, hp, heff⟩ := createMetadataJson_ok hok
  have hp' : p = Join [i.filePath,
      if i.metadataFileName = "" then str "metadata.json" else i.metadataFileName] := hp
  refine ⟨hp', ⟨_, heff⟩, ?_, ?_⟩
  · intro hd rooted elems hne hall hdata
    rw [hp', Join_pair _ _ hd, hdata, Clean_plainPath rooted elems hne hall]
  · intro hd
    have hn : (if i.metadataFileName = "" then str "metadata.json" else i.metadataFileName)
        ≠ "" := by
      split_ifs with h
      · decide
      · exact h
    have hclean : p = Clean (if i.metadataFileName = "" then str "metadata.json"
        else i.metadataFileName) := by
      rw [hp', hd]
      exact Join_empty_dir _ hn
    refine ⟨hclean, ?_⟩
    intro rooted elems hne hall hdata
    rw [hclean, hdata, Clean_plainPath rooted elems hne hall]

/-- Witness of C7 (amended): for the directory `/tmp/out` and no file name the
path is exactly `/tmp/out/metadata.json`; for no directory and the file name
`/tmp/out/abs.json` it is that name, leading slash included. -/
theorem output_path_witness :
    ((createMetadataJson pushWorld fullInput).result = .ok "/tmp/out/metadata.json" ∧
      fullInput.filePath = "/tmp/out" ∧ fullInput.metadataFileName = "" ∧
      str "/tmp/out/metadata.json" = fullInput.filePath ++ str "/" ++
        (if fullInput.metadataFileName = "" then str "metadata.json"
          else fullInput.metadataFileName)) ∧
    ((createMetadataJson pushWorld
        { fullInput with filePath := "", metadataFileName := "/tmp/out/abs.json" }).result
      = .ok "/tmp/out/abs.json" ∧
      str "/tmp/out/abs.json" =
        (if ({ fullInput with filePath := "", metadataFileName := "/tmp/out/abs.json" }
            : input).metadataFileName = "" then str "metadata.json"
          else ({ fullInput with filePath := "", metadataFileName := "/tmp/out/abs.json" }
            : input).metadataFileName)) :=
  ⟨⟨by decide, rfl, rfl,
    (output_path pushWorld fullInput "/tmp/out/metadata.json" (by decide)).2.2.1
      (by decide) true [str "tmp", str "out", str "metadata.json"] (by decide)
      (by decide) (by decide)⟩,
   ⟨by decide,
    ((output_path pushWorld
      { fullInput with filePath := "", metadataFileName := "/tmp/out/abs.json" }
      "/tmp/out/abs.json" (by decide)).2.2.2 (by decide)).2
      true [str "tmp", str "out", str "abs.json"] (by decide) (by decide) (by decide)⟩⟩

/-- C8, as stated, fails: the product `a\xffb` has a byte that is not valid
UTF-8; `json.MarshalIndent` writes the escape `\ufffd` in its place, so the value of the key
`product` in the file is `a`, U+FFFD, `b`, which is not the resolved product. -/
theorem invalid_byte_is_replaced :
    createMetadataJson pushWorld { fullInput with product := [0x61, 0xFF, 0x62] } =
      ⟨.ok "/tmp/out/metadata.json",
        [.writeFile "/tmp/out/metadata.json"
          (str ("\x7b\n\t\t\"branch\": \"\",\n\t\t\"buildworkflowid\": \"7\",\n" ++
           "\t\t\"product\": \"a\\ufffdb\",\n\t\t\"repo\": \"vault\",\n" ++
           "\t\t\"org\": \"hashicorp\",\n\t\t\"sha\": \"abc\",\n" ++
           "\t\t\"version\": \"1.2.3\"\n\x7d")) 0o644]⟩ ∧
    decodeString (str "\"a\\ufffdb\"") = some (str "a\uFFFDb") ∧
    str "a\uFFFDb" ≠ ({ fullInput with product := [0x61, 0xFF, 0x62] } : input).product := by
  decide

/-- C8 (amended): every write of `createMetadataJson` is its only one, is made
once the record is resolved, and carries the marshalled record `m` whose fields
are the resolved branch, `GITHUB_RUN_ID`, product, repo, org, sha and version;
cut at the newlines, the bytes are an opening brace, then exactly seven lines,
each two tab characters, a quoted key, a colon, a space and a JSON string
(followed by a comma except on the last), with the keys branch,
buildworkflowid, product, repo, org, sha, version in that order, then a closing
brace; the JSON string on a line reads back as the field's value with every
byte that is not part of a valid UTF-8 encoding replaced by U+FFFD, so as the
field's value itself when that is valid UTF-8. -/
theorem written_bytes_layout (w : World) (i : input) (path data : GoString) (perm : Nat)
    (hwrite : Effect.writeFile path data perm ∈ (createMetadataJson w i).effects) :
    ∃ m : Metadata,
      (createMetadataJson w i).effects =
        (versionStep w i).effects ++ [.writeFile path data perm] ∧
      (∀ e ∈ (versionStep w i).effects, ∃ name args, e = .exec name args) ∧
      m.Branch =
        (if i.branch = "" ∧ w.Getenv "GITHUB_HEAD_REF" = "" then
          TrimPrefix (w.Getenv "GITHUB_REF") "refs/heads/"
        else w.Getenv "GITHUB_HEAD_REF") ∧
      m.BuildWorkflowId = w.Getenv "GITHUB_RUN_ID" ∧
      m.Product = i.product ∧
      (if i.repo = "" then (Split (w.Getenv "GITHUB_REPOSITORY") 0x2f)[1]? else some i.repo)
        = some m.Repo ∧
      m.Org = (if i.org = "" then str "hashicorp" else i.org) ∧
      m.Revision = (if i.sha = "" then w.Getenv "GITHUB_SHA" else i.sha) ∧
      (if Contains i.version " " then getVersion w i.version else ⟨.ok i.version, []⟩).result
        = .ok m.Version ∧
      Split data 0x0A =
        [ str "\x7b",
          str "\t\t\"branch\": " ++ encodeString w.jsonShortEscapes m.Branch ++ str ",",
          str "\t\t\"buildworkflowid\": " ++
            encodeString w.jsonShortEscapes m.BuildWorkflowId ++ str ",",
          str "\t\t\"product\": " ++ encodeString w.jsonShortEscapes m.Product ++ str ",",
          str "\t\t\"repo\": " ++ encodeString w.jsonShortEscapes m.Repo ++ str ",",
          str "\t\t\"org\": " ++ encodeString w.jsonShortEscapes m.Org ++ str ",",
          str "\t\t\"sha\": " ++ encodeString w.jsonShortEscapes m.Revision ++ str ",",
          str "\t\t\"version\": " ++ encodeString w.jsonShortEscapes m.Version,
          str "\x7d" ] ∧
      ∀ v : GoString,
        decodeString (encodeString w.jsonShortEscapes v) = some (toValid v) ∧
        (ValidString v = true → decodeString (encodeString w.jsonShortEscapes v) = some v) := by
  obtain ⟨repository, version, hrep, hver, -, -, hdata, heff⟩ := createMetadataJson_write hwrite
  subst hdata
  refine ⟨recordOf w i repository version, heff, versionStep_effects w i, rfl, rfl, rfl, hrep,
    rfl, rfl, hver, MarshalIndent_lines _ _, ?_⟩
  intro v
  refine ⟨decodeString_encodeString _ v, ?_⟩
  intro hv
  rw [decodeString_encodeString, toValid_of_valid v hv]

/-- Witness of C8 (amended): the file written by the push build with the
literal version `1.2.3`; the value of its key `product` reads back as the
product, which is valid UTF-8. -/
theorem written_bytes_layout_witness :
    ∃ m : Metadata,
      m.Product = "vault" ∧ m.BuildWorkflowId = "7" ∧
      Split
        (str ("\x7b\n\t\t\"branch\": \"\",\n\t\t\"buildworkflowid\": \"7\",\n" ++
          "\t\t\"product\": \"vault\",\n\t\t\"repo\": \"vault\",\n" ++
          "\t\t\"org\": \"hashicorp\",\n\t\t\"sha\": \"abc\",\n" ++
          "\t\t\"version\": \"1.2.3\"\n\x7d")) 0x0A =
        [ str "\x7b",
          str "\t\t\"branch\": " ++ encodeString true m.Branch ++ str ",",
          str "\t\t\"buildworkflowid\": " ++ encodeString true m.BuildWorkflowId ++ str ",",
          str "\t\t\"product\": " ++ encodeString true m.Product ++ str ",",
          str "\t\t\"repo\": " ++ encodeString true m.Repo ++ str ",",
          str "\t\t\"org\": " ++ encodeString true m.Org ++ str ",",
          str "\t\t\"sha\": " ++ encodeString true m.Revision ++ str ",",
          str "\t\t\"version\": " ++ encodeString true m.Version,
          str "\x7d" ] ∧
      decodeString (encodeString true m.Product) = some m.Product := by
  obtain ⟨m, -, -, -, h3, h4, -, -, -, -, h5, h6⟩ :=
    written_bytes_layout pushWorld fullInput "/tmp/out/metadata.json"
      (str ("\x7b\n\t\t\"branch\": \"\",\n\t\t\"buildworkflowid\": \"7\",\n" ++
        "\t\t\"product\": \"vault\",\n\t\t\"repo\": \"vault\",\n" ++
        "\t\t\"org\": \"hashicorp\",\n\t\t\"sha\": \"abc\",\n" ++
        "\t\t\"version\": \"1.2.3\"\n\x7d")) 0o644 (by decide)
  refine ⟨m, h4, h3, h5, (h6 m.Product).2 ?_⟩
  rw [h4]
  decide

/-- Claim C10: for every version input that `run` reads with `actions.GetInput`
and that contains a space, `strings.Fields` yields a program name and
arguments, so the access `args[0]` of `execCommand` is in bounds and neither
`execCommand` nor `getVersion` panics; the runner is invoked once, with exactly
that program name and those arguments, and this is the only command that
`createMetadataJson` and `run` execute. -/
theorem version_command_is_well_defined (w : World)
    (h : Contains (inputOf w).version " ") :
    ∃ name args,
      Fields (inputOf w).version = name :: args ∧
      (Fields (inputOf w).version)[0]? = some name ∧
      (execCommand w (Fields (inputOf w).version)).effects = [.exec name args] ∧
      (∀ reason, (execCommand w (Fields (inputOf w).version)).result ≠ .panicked reason) ∧
      versionStep w (inputOf w) = getVersion w (inputOf w).version ∧
      (getVersion w (inputOf w).version).effects = [.exec name args] ∧
      (∀ reason, (getVersion w (inputOf w).version).result ≠ .panicked reason) ∧
      (∀ n a, Effect.exec n a ∈ (createMetadataJson w (inputOf w)).effects →
        n = name ∧ a = args) ∧
      (∀ n a, Effect.exec n a ∈ (run w).effects → n = name ∧ a = args) ∧
      (createMetadataJson w (inputOf w)).result ≠
        .panicked "runtime error: index out of range [0] with length 0" ∧
      (run w).result ≠ .panicked "runtime error: index out of range [0] with length 0" := by
  have hf : ∃ name args, Fields (inputOf w).version = name :: args := by
    rw [inputOf_version] at h ⊢
    exact Fields_TrimSpace _ h
  obtain ⟨name, args, hf⟩ := hf
  have hstep : versionStep w (inputOf w) = getVersion w (inputOf w).version := by
    unfold versionStep
    rw [if_pos h]
  have hexec : (execCommand w (Fields (inputOf w).version)).effects = [.exec name args] ∧
      ∀ reason, (execCommand w (Fields (inputOf w).version)).result ≠ .panicked reason := by
    rw [hf]
    unfold execCommand
    cases hr : (w.Run name args).err with
    | none => simp [hr]
    | some err => simp [hr]
  have hget : (getVersion w (inputOf w).version).effects = [.exec name args] ∧
      ∀ reason, (getVersion w (inputOf w).version).result ≠ .panicked reason := by
    rw [getVersion_eq w _ name args hf]
    cases (w.Run name args).err with
    | none =>
      simp only
      split_ifs <;> simp
    | some err => simp
  have hcre : ∀ n a, Effect.exec n a ∈ (createMetadataJson w (inputOf w)).effects →
      n = name ∧ a = args := by
    intro n a he
    have := createMetadataJson_exec w _ n a he
    rw [hstep, hget.1] at this
    simpa using this
  have hpan : (createMetadataJson w (inputOf w)).result ≠
      .panicked "runtime error: index out of range [0] with length 0" := by
    intro hp
    rcases createMetadataJson_panic w _ _ hp with h1 | h1
    · exact absurd h1 (by decide)
    · rw [hstep] at h1
      exact hget.2 _ h1
  refine ⟨name, args, hf, by rw [hf]; simp, hexec.1, hexec.2, hstep, hget.1, hget.2, hcre, ?_,
    hpan, ?_⟩
  · intro n a he
    exact hcre n a (run_exec w n a he)
  · intro hp
    exact hpan (run_panic w _ hp)

/-- Claim C10 at the inputs of `commandWorld`, whose version input
`"  git describe --tags "` arrives trimmed: program `git`, arguments
`describe` and `--tags`. -/
theorem version_command_is_well_defined_witness :
    Contains (inputOf commandWorld).version " " ∧
    Fields (inputOf commandWorld).version = [str "git", str "describe", str "--tags"] ∧
    (run commandWorld).effects.filter
        (fun e => match e with
          | .exec _ _ => true
          | _ => false) =
      [.exec "git" [str "describe", str "--tags"]] ∧
    ∃ name args,
      Fields (inputOf commandWorld).version = name :: args ∧
      (Fields (inputOf commandWorld).version)[0]? = some name ∧
      (execCommand commandWorld (Fields (inputOf commandWorld).version)).effects =
        [.exec name args] ∧
      (∀ reason, (execCommand commandWorld (Fields (inputOf commandWorld).version)).result ≠
        .panicked reason) ∧
      versionStep commandWorld (inputOf commandWorld) =
        getVersion commandWorld (inputOf commandWorld).version ∧
      (getVersion commandWorld (inputOf commandWorld).version).effects = [.exec name args] ∧
      (∀ reason, (getVersion commandWorld (inputOf commandWorld).version).result ≠
        .panicked reason) ∧
      (∀ n a, Effect.exec n a ∈ (createMetadataJson commandWorld (inputOf commandWorld)).effects →
        n = name ∧ a = args) ∧
      (∀ n a, Effect.exec n a ∈ (run commandWorld).effects → n = name ∧ a = args) ∧
      (createMetadataJson commandWorld (inputOf commandWorld)).result ≠
        .panicked "runtime error: index out of range [0] with length 0" ∧
      (run commandWorld).result ≠
        .panicked "runtime error: index out of range [0] with length 0" :=
  ⟨by decide, by decide, by decide, version_command_is_well_defined commandWorld (by decide)⟩

end GenerateMetadata
